import Mathlib

/-!
# Verification of the numpy-ml gradient-based optimizers

A shallow embedding of `neural_nets/optimizers/optimizers.py` (classes
`OptimizerBase`, `SGD`, `AdaGrad`, `RMSProp`, `Adam`).

Modelling decisions:
* numpy 1-D arrays become `List ℝ`; elementwise binary operations carry
  numpy's 1-D broadcasting rule (lengths equal, or one side of length 1).
  A numpy `ValueError` (non-broadcastable shapes) is `none`.
* In-place array operations (`+=`) broadcast only the right operand into
  the left one, exactly as numpy does (`ibop` below, vs. `bop`).
* Python dicts (the per-parameter `cache`, `hyperparameters`) become
  association lists `List (String × α)` keeping insertion order: new keys
  are appended, assignment to an existing key overwrites in place.
* The learning-rate scheduler is an external collaborator
  (`initializers.py` is not part of this source tree); it is kept as an
  opaque function field `ℕ → Option ℝ → ℝ` of each optimizer state.
* Floating point is idealised as ℝ.  Where a numpy computation would
  produce `nan`/`inf` from a division by zero, theorems carry explicit
  positivity hypotheses (`0 < eps`, a nonnegative `clip_norm`, …) instead
  of relying on Lean's `x / 0 = 0` convention.
* A separate heap model (store of array/record cells addressed by `ℕ`
  references) is used for the `copy()` independence property, since that
  property is about the absence of shared mutable state.
-/

noncomputable section

/-! ## Python dict primitives (association lists in insertion order) -/

/-- `k in d` for a python dict modelled as an association list. -/
def dictGet {α : Type} : List (String × α) → String → Option α
  | [], _ => none
  | p :: ps, k => if p.1 = k then some p.2 else dictGet ps k

/-- Membership test `k in d`. -/
def dictContains {α : Type} (d : List (String × α)) (k : String) : Bool :=
  (dictGet d k).isSome

/-- `d[k] = v` when `k` is already a key of `d`: overwrite in place,
keeping insertion order (python dict semantics for existing keys). -/
def dictOverwrite {α : Type} : List (String × α) → String → α → List (String × α)
  | [], _, _ => []
  | p :: ps, k, v => if p.1 = k then (k, v) :: dictOverwrite ps k v else p :: dictOverwrite ps k v

/-! ## numpy tensor primitives (1-D) -/

/-- `np.linalg.norm`: the L2 norm of a 1-D array. -/
def l2norm (g : List ℝ) : ℝ :=
  Real.sqrt ((g.map (fun x => x ^ 2)).sum)

/-- `np.zeros_like`. -/
def zerosLike (g : List ℝ) : List ℝ :=
  g.map (fun _ => 0)

/-- Elementwise binary operation with numpy 1-D broadcasting:
shapes `(n,)` and `(m,)` are compatible iff `n = m` or one of them is 1.
`none` is numpy's `ValueError: operands could not be broadcast together`. -/
def bop (f : ℝ → ℝ → ℝ) (a b : List ℝ) : Option (List ℝ) :=
  if a.length = b.length then some (List.zipWith f a b)
  else if a.length = 1 then some (b.map (fun y => f (a.headD 0) y))
  else if b.length = 1 then some (a.map (fun x => f x (b.headD 0)))
  else none

/-- In-place elementwise operation `a op= b`: the result keeps `a`'s shape,
so only `b` may broadcast (numpy raises if `b` is larger than `a`). -/
def ibop (f : ℝ → ℝ → ℝ) (a b : List ℝ) : Option (List ℝ) :=
  if b.length = a.length then some (List.zipWith f a b)
  else if b.length = 1 then some (a.map (fun x => f x (b.headD 0)))
  else none

/-- The gradient-clipping block shared verbatim by all four `update`
methods:

    t = np.inf if clip_norm is None else clip_norm
    if norm(param_grad) > t:
        param_grad = param_grad * t / norm(param_grad)

With `clip_norm = None` the guard `norm > inf` is never true, so the
gradient is returned unmodified. -/
def clipGrad (clip_norm : Option ℝ) (g : List ℝ) : List ℝ :=
  match clip_norm with
  | none => g
  | some c => if l2norm g > c then g.map (fun x => x * c / l2norm g) else g

/-! ## OptimizerBase.set_params

`set_params(hparam_dict, cache_dict)` overwrites only the keys that
already exist in `self.hyperparameters` / `self.cache`; unknown keys are
silently ignored and no exception is raised (the function is total).
The `lr_scheduler` re-resolution through `SchedulerInitializer` concerns
the external scheduler collaborator (`initializers.py`, not part of this
source tree) and does not touch either dict beyond the overwrite. -/

/-- The loop
    for k, v in patch.items():
        if k in d:
            d[k] = v
applied to a python dict `d`. -/
def setParamsDict {α : Type} (d : List (String × α)) (patch : List (String × α)) :
    List (String × α) :=
  patch.foldl (fun acc kv => if dictContains acc kv.1 then dictOverwrite acc kv.1 kv.2 else acc) d

/-- The state owned by `OptimizerBase`, generic in the value types stored
in the two dicts. -/
structure BaseState (α β : Type) where
  hyperparameters : List (String × α)
  cache : List (String × β)
  cur_step : ℕ

/-- `OptimizerBase.set_params(hparam_dict=None, cache_dict=None)`. -/
def OptimizerBase.set_params {α β : Type} (st : BaseState α β)
    (hparam_dict : Option (List (String × α))) (cache_dict : Option (List (String × β))) :
    BaseState α β :=
  { st with
    hyperparameters :=
      match hparam_dict with
      | none => st.hyperparameters
      | some d => setParamsDict st.hyperparameters d
    cache :=
      match cache_dict with
      | none => st.cache
      | some d => setParamsDict st.cache d }

/-! ## The four concrete optimizers (value-level states)

Each python object's scalar hyperparameters are embedded as a typed
record (the source stores them in `self.hyperparameters` and reads them
back under fixed keys at the top of every `update`). -/

structure SGDHyper where
  lr : ℝ
  momentum : ℝ
  clip_norm : Option ℝ

structure SGDState where
  cache : List (String × List ℝ)
  cur_step : ℕ
  hyper : SGDHyper
  lr_scheduler : ℕ → Option ℝ → ℝ

structure AdaGradHyper where
  lr : ℝ
  eps : ℝ
  clip_norm : Option ℝ

structure AdaGradState where
  cache : List (String × List ℝ)
  cur_step : ℕ
  hyper : AdaGradHyper
  lr_scheduler : ℕ → Option ℝ → ℝ

structure RMSPropHyper where
  lr : ℝ
  decay : ℝ
  eps : ℝ
  clip_norm : Option ℝ

structure RMSPropState where
  cache : List (String × List ℝ)
  cur_step : ℕ
  hyper : RMSPropHyper
  lr_scheduler : ℕ → Option ℝ → ℝ

/-- Adam's per-parameter cache entry `{"t": ..., "mean": ..., "var": ...}`. -/
structure AdamEntry where
  t : ℕ
  mean : List ℝ
  var : List ℝ

structure AdamHyper where
  lr : ℝ
  decay1 : ℝ
  decay2 : ℝ
  eps : ℝ
  clip_norm : Option ℝ

structure AdamState where
  cache : List (String × AdamEntry)
  cur_step : ℕ
  hyper : AdamHyper
  lr_scheduler : ℕ → Option ℝ → ℝ

/-! ### Update cores

The numeric heart of each `update`, taking the scalars, the cached state
for this parameter name and the inputs, and producing the new cached
state together with the updated parameter.  These cores are shared
between the value-level optimizer states below and the heap model used
for `copy()`. -/

/-- SGD (lines 149-156):
    update = momentum * C[param_name] + lr * param_grad
    return param - update          (also cached under param_name) -/
def sgdCore (momentum : ℝ) (clip_norm : Option ℝ) (lr : ℝ)
    (v param param_grad : List ℝ) : Option (List ℝ × List ℝ) :=
  let g := clipGrad clip_norm param_grad
  (bop (fun x y => x + y) (v.map (fun x => momentum * x)) (g.map (fun x => lr * x))).bind fun upd =>
  (bop (fun x y => x - y) param upd).bind fun res =>
  some (upd, res)

/-- AdaGrad (lines 247-255):
    C[param_name] += param_grad ** 2           (in-place)
    update = lr * param_grad / (np.sqrt(C[param_name]) + eps)
    return param - update -/
def adagradCore (eps : ℝ) (clip_norm : Option ℝ) (lr : ℝ)
    (v param param_grad : List ℝ) : Option (List ℝ × List ℝ) :=
  let g := clipGrad clip_norm param_grad
  (ibop (fun x y => x + y) v (g.map (fun x => x ^ 2))).bind fun sumSq =>
  (bop (fun x s => x / s) (g.map (fun x => lr * x))
    (sumSq.map (fun s => Real.sqrt s + eps))).bind fun upd =>
  (bop (fun x y => x - y) param upd).bind fun res =>
  some (sumSq, res)

/-- RMSProp (lines 340-348):
    C[param_name] = decay * C[param_name] + (1 - decay) * param_grad ** 2
    update = lr * param_grad / (np.sqrt(C[param_name]) + eps)
    return param - update -/
def rmspropCore (decay eps : ℝ) (clip_norm : Option ℝ) (lr : ℝ)
    (v param param_grad : List ℝ) : Option (List ℝ × List ℝ) :=
  let g := clipGrad clip_norm param_grad
  (bop (fun x y => decay * x + (1 - decay) * y) v (g.map (fun x => x ^ 2))).bind fun avgSq =>
  (bop (fun x s => x / s) (g.map (fun x => lr * x))
    (avgSq.map (fun s => Real.sqrt s + eps))).bind fun upd =>
  (bop (fun x y => x - y) param upd).bind fun res =>
  some (avgSq, res)

/-- Adam (lines 443-462):
    t = C[param_name]["t"] + 1
    C[param_name]["var"]  = d2 * var + (1 - d2) * param_grad ** 2
    C[param_name]["mean"] = d1 * mean + (1 - d1) * param_grad
    v_hat = var / (1 - d2 ** t);  m_hat = mean / (1 - d1 ** t)
    update = lr * m_hat / (np.sqrt(v_hat) + eps)
    return param - update -/
def adamCore (d1 d2 eps : ℝ) (clip_norm : Option ℝ) (lr : ℝ)
    (e : AdamEntry) (param param_grad : List ℝ) : Option (AdamEntry × List ℝ) :=
  let g := clipGrad clip_norm param_grad
  let t := e.t + 1
  (bop (fun x y => d2 * x + (1 - d2) * y) e.var (g.map (fun x => x ^ 2))).bind fun var2 =>
  (bop (fun x y => d1 * x + (1 - d1) * y) e.mean g).bind fun mean2 =>
  let v_hat := var2.map (fun x => x / (1 - d2 ^ t))
  let m_hat := mean2.map (fun x => x / (1 - d1 ^ t))
  (bop (fun x s => lr * x / s) m_hat (v_hat.map (fun s => Real.sqrt s + eps))).bind fun upd =>
  (bop (fun x y => x - y) param upd).bind fun res =>
  some (⟨t, mean2, var2⟩, res)

/-! ### The `update` methods -/

/-- `SGD.update(param, param_grad, param_name, cur_loss=None)`.
`none` is a raised numpy `ValueError`.  On a first-seen name the source
first inserts `np.zeros_like(param_grad)`; combining that insertion with
the read `C[param_name]` gives the `getD (zerosLike param_grad)` below. -/
def sgdUpdate (st : SGDState) (param param_grad : List ℝ) (param_name : String)
    (cur_loss : Option ℝ) : Option (List ℝ × SGDState) :=
  let lr := st.lr_scheduler st.cur_step cur_loss
  let C := if dictContains st.cache param_name then st.cache
           else st.cache ++ [(param_name, zerosLike param_grad)]
  (sgdCore st.hyper.momentum st.hyper.clip_norm lr
    ((dictGet st.cache param_name).getD (zerosLike param_grad)) param param_grad).bind fun ur =>
  some (ur.2, { st with cache := dictOverwrite C param_name ur.1 })

/-- `AdaGrad.update`. -/
def adagradUpdate (st : AdaGradState) (param param_grad : List ℝ) (param_name : String)
    (cur_loss : Option ℝ) : Option (List ℝ × AdaGradState) :=
  let lr := st.lr_scheduler st.cur_step cur_loss
  let C := if dictContains st.cache param_name then st.cache
           else st.cache ++ [(param_name, zerosLike param_grad)]
  (adagradCore st.hyper.eps st.hyper.clip_norm lr
    ((dictGet st.cache param_name).getD (zerosLike param_grad)) param param_grad).bind fun ur =>
  some (ur.2, { st with cache := dictOverwrite C param_name ur.1 })

/-- `RMSProp.update`. -/
def rmspropUpdate (st : RMSPropState) (param param_grad : List ℝ) (param_name : String)
    (cur_loss : Option ℝ) : Option (List ℝ × RMSPropState) :=
  let lr := st.lr_scheduler st.cur_step cur_loss
  let C := if dictContains st.cache param_name then st.cache
           else st.cache ++ [(param_name, zerosLike param_grad)]
  (rmspropCore st.hyper.decay st.hyper.eps st.hyper.clip_norm lr
    ((dictGet st.cache param_name).getD (zerosLike param_grad)) param param_grad).bind fun ur =>
  some (ur.2, { st with cache := dictOverwrite C param_name ur.1 })

/-- `Adam.update`.  A first-seen name gets the cache entry
`{"t": 0, "mean": zeros, "var": zeros}` before the equations run. -/
def adamUpdate (st : AdamState) (param param_grad : List ℝ) (param_name : String)
    (cur_loss : Option ℝ) : Option (List ℝ × AdamState) :=
  let lr := st.lr_scheduler st.cur_step cur_loss
  let init : AdamEntry := ⟨0, zerosLike param_grad, zerosLike param_grad⟩
  let C := if dictContains st.cache param_name then st.cache
           else st.cache ++ [(param_name, init)]
  (adamCore st.hyper.decay1 st.hyper.decay2 st.hyper.eps st.hyper.clip_norm lr
    ((dictGet st.cache param_name).getD init) param param_grad).bind fun ur =>
  some (ur.2, { st with cache := dictOverwrite C param_name ur.1 })

/-! ### Call sequences and dynamic dispatch -/

/-- One `update` call as issued by the training loop. -/
structure UpdCall where
  param : List ℝ
  grad : List ℝ
  name : String
  cur_loss : Option ℝ

/-- A sequence of `AdaGrad.update` calls; a raised error aborts the run. -/
def adagradRun (st : AdaGradState) : List UpdCall → Option AdaGradState
  | [] => some st
  | c :: cs => (adagradUpdate st c.param c.grad c.name c.cur_loss).bind fun r => adagradRun r.2 cs

/-- A sequence of `RMSProp.update` calls. -/
def rmspropRun (st : RMSPropState) : List UpdCall → Option RMSPropState
  | [] => some st
  | c :: cs => (rmspropUpdate st c.param c.grad c.name c.cur_loss).bind fun r => rmspropRun r.2 cs

/-- The closed set of concrete optimizer classes. -/
inductive Optimizer where
  | sgd : SGDState → Optimizer
  | adagrad : AdaGradState → Optimizer
  | rmsprop : RMSPropState → Optimizer
  | adam : AdamState → Optimizer

/-- Dynamic dispatch of `update` over the concrete class. -/
def Optimizer.update : Optimizer → List ℝ → List ℝ → String → Option ℝ →
    Option (List ℝ × Optimizer)
  | .sgd st, p, g, n, l => (sgdUpdate st p g n l).map (fun r => (r.1, .sgd r.2))
  | .adagrad st, p, g, n, l => (adagradUpdate st p g n l).map (fun r => (r.1, .adagrad r.2))
  | .rmsprop st, p, g, n, l => (rmspropUpdate st p g n l).map (fun r => (r.1, .rmsprop r.2))
  | .adam st, p, g, n, l => (adamUpdate st p g n l).map (fun r => (r.1, .adam r.2))

/-- `OptimizerBase.__call__(self, param, param_grad, param_name, cur_loss=None)`:
    return self.update(param, param_grad, param_name, cur_loss) -/
def Optimizer.call (o : Optimizer) (param param_grad : List ℝ) (param_name : String)
    (cur_loss : Option ℝ) : Option (List ℝ × Optimizer) :=
  o.update param param_grad param_name cur_loss

/-! ## Heap model for `copy()` independence

`OptimizerBase.copy` is `deepcopy(self)`; the property to check is the
absence of shared mutable state between the copy and the original.  To
make that statable, optimizer objects live in an object store and every
cache entry (an ndarray, or Adam's per-name `{"t", "mean", "var"}` dict)
is a separately addressed mutable cell: `AdaGrad.update` mutates its
cached array in place (`+=`), `Adam.update` mutates its per-name dict in
place, while `SGD`/`RMSProp` rebind the cache key to a freshly allocated
array.  A shallow copy would share these cells; `deepcopy` clones them. -/

/-- A value held by `self.hyperparameters` (floats, optional floats such
as `clip_norm`, and strings such as `id`). -/
inductive HVal where
  | num : ℝ → HVal
  | onum : Option ℝ → HVal
  | str : String → HVal

/-- A heap cell: an ndarray, or Adam's per-name cache dict. -/
inductive ECell where
  | arr : List ℝ → ECell
  | adamE : ℕ → List ℝ → List ℝ → ECell

/-- The concrete class of an optimizer object. -/
inductive Alg where
  | sgd
  | adagrad
  | rmsprop
  | adam

/-- An optimizer object: its class, its `hyperparameters` dict, its
`cache` dict (parameter name to cell reference), `cur_step`, and the
scheduler callable. -/
structure HObj where
  alg : Alg
  hyperparameters : List (String × HVal)
  cacheKeys : List (String × ℕ)
  cur_step : ℕ
  lr_scheduler : ℕ → Option ℝ → ℝ

/-- The store: cells addressed by `ℕ`, objects addressed by `ℕ`. -/
structure Heap where
  cells : List ECell
  objs : List HObj

def cellAt (h : Heap) (r : ℕ) : Option ECell :=
  h.cells.get? r

def allocCells (h : Heap) (cs : List ECell) : Heap :=
  { h with cells := h.cells ++ cs }

def writeCell (h : Heap) (r : ℕ) (c : ECell) : Heap :=
  { h with cells := h.cells.set r c }

def writeObj (h : Heap) (j : ℕ) (o : HObj) : Heap :=
  { h with objs := h.objs.set j o }

/-- Read a float hyperparameter (e.g. `H["momentum"]`); a missing or
non-float value would make the update equations raise, hence `none`. -/
def getNum (H : List (String × HVal)) (k : String) : Option ℝ :=
  match dictGet H k with
  | some (.num x) => some x
  | _ => none

/-- Read `H["clip_norm"]` (a float or `None`). -/
def getONum (H : List (String × HVal)) (k : String) : Option (Option ℝ) :=
  match dictGet H k with
  | some (.onum x) => some x
  | _ => none

/-- Read an ndarray cell (any other content would be a python type
error). -/
def asArr : Option ECell → Option (List ℝ)
  | some (ECell.arr v) => some v
  | _ => none

/-- Read an Adam per-name dict cell. -/
def asAdam : Option ECell → Option AdamEntry
  | some (ECell.adamE t mean var) => some ⟨t, mean, var⟩
  | _ => none

/-- The `if param_name not in C: C[param_name] = <init>` block on the
heap: a first-seen name allocates a cell holding `init` and appends the
binding; otherwise the existing binding is used.  Returns the (possibly
grown) heap, the (possibly updated) object, and the entry's cell
reference. -/
def ensureCell (h : Heap) (o : HObj) (n : String) (init : ECell) : Heap × HObj × ℕ :=
  match dictGet o.cacheKeys n with
  | some r => (h, o, r)
  | none =>
    (allocCells h [init],
     { o with cacheKeys := o.cacheKeys ++ [(n, h.cells.length)] },
     h.cells.length)

/-- `SGD.update` / `RMSProp.update` on the heap: the freshly computed
`update`/average array is a new ndarray object, so a new cell is
allocated and the cache key is rebound to it (`self.cache[param_name] =
update`). -/
def heapRebindUpdate (h : Heap) (j : ℕ) (o : HObj)
    (core : List ℝ → Option (List ℝ × List ℝ)) (g : List ℝ) (n : String) : Option Heap :=
  let e := ensureCell h o n (ECell.arr (zerosLike g))
  (asArr (cellAt e.1 e.2.2)).bind fun v =>
  (core v).bind fun vr =>
  some (writeObj (allocCells e.1 [ECell.arr vr.1]) j
    { e.2.1 with cacheKeys := dictOverwrite e.2.1.cacheKeys n e.1.cells.length })

/-- `AdaGrad.update` on the heap: `C[param_name] += param_grad ** 2`
mutates the cached ndarray cell in place. -/
def heapInPlaceUpdate (h : Heap) (j : ℕ) (o : HObj)
    (core : List ℝ → Option (List ℝ × List ℝ)) (g : List ℝ) (n : String) : Option Heap :=
  let e := ensureCell h o n (ECell.arr (zerosLike g))
  (asArr (cellAt e.1 e.2.2)).bind fun v =>
  (core v).bind fun vr =>
  some (writeObj (writeCell e.1 e.2.2 (ECell.arr vr.1)) j e.2.1)

/-- `Adam.update` on the heap: the per-name dict cell is mutated in
place (`C[param_name]["t"] = t` etc.). -/
def heapAdamUpdate (h : Heap) (j : ℕ) (o : HObj)
    (core : AdamEntry → Option (AdamEntry × List ℝ)) (g : List ℝ) (n : String) : Option Heap :=
  let e := ensureCell h o n (ECell.adamE 0 (zerosLike g) (zerosLike g))
  (asAdam (cellAt e.1 e.2.2)).bind fun ent =>
  (core ent).bind fun er =>
  some (writeObj (writeCell e.1 e.2.2 (ECell.adamE er.1.t er.1.mean er.1.var)) j e.2.1)

/-- `update` on an object of the store, dispatching on its class and
reading the scalar hyperparameters from its `hyperparameters` dict. -/
def doUpdate (h : Heap) (j : ℕ) (p g : List ℝ) (n : String) (l : Option ℝ) : Option Heap :=
  (h.objs.get? j).bind fun o =>
    let lr := o.lr_scheduler o.cur_step l
    match o.alg with
    | .sgd =>
      match getNum o.hyperparameters "momentum", getONum o.hyperparameters "clip_norm" with
      | some momentum, some cn =>
        heapRebindUpdate h j o (fun v => sgdCore momentum cn lr v p g) g n
      | _, _ => none
    | .adagrad =>
      match getNum o.hyperparameters "eps", getONum o.hyperparameters "clip_norm" with
      | some eps, some cn =>
        heapInPlaceUpdate h j o (fun v => adagradCore eps cn lr v p g) g n
      | _, _ => none
    | .rmsprop =>
      match getNum o.hyperparameters "decay", getNum o.hyperparameters "eps",
          getONum o.hyperparameters "clip_norm" with
      | some decay, some eps, some cn =>
        heapRebindUpdate h j o (fun v => rmspropCore decay eps cn lr v p g) g n
      | _, _, _ => none
    | .adam =>
      match getNum o.hyperparameters "decay1", getNum o.hyperparameters "decay2",
          getNum o.hyperparameters "eps", getONum o.hyperparameters "clip_norm" with
      | some d1, some d2, some eps, some cn =>
        heapAdamUpdate h j o (fun e => adamCore d1 d2 eps cn lr e p g) g n
      | _, _, _, _ => none

/-- `step(self)`: `self.cur_step += 1`. -/
def doStep (h : Heap) (j : ℕ) : Option Heap :=
  (h.objs.get? j).map fun o => writeObj h j { o with cur_step := o.cur_step + 1 }

/-- `reset_step(self)`: `self.cur_step = 0`. -/
def doResetStep (h : Heap) (j : ℕ) : Option Heap :=
  (h.objs.get? j).map fun o => writeObj h j { o with cur_step := 0 }

/-- The cache part of `set_params`: for each key of `cache_dict` already
present in the cache, bind it to a cell holding the supplied value (the
supplied value is a distinct object, hence a fresh cell). -/
def applyCachePatch (h : Heap) (keys : List (String × ℕ)) :
    List (String × ECell) → Heap × List (String × ℕ)
  | [] => (h, keys)
  | kv :: rest =>
    if dictContains keys kv.1 then
      applyCachePatch (allocCells h [kv.2]) (dictOverwrite keys kv.1 h.cells.length) rest
    else
      applyCachePatch h keys rest

/-- `set_params` on an object of the store.  The re-resolution of the
scheduler on an `"lr_scheduler"` key goes through the external
`SchedulerInitializer` (not part of this source tree) and only replaces
the object-local callable, so it is not modelled further. -/
def doSetParams (h : Heap) (j : ℕ) (hparam_dict : Option (List (String × HVal)))
    (cache_dict : Option (List (String × ECell))) : Option Heap :=
  (h.objs.get? j).map fun o =>
    let H2 := match hparam_dict with
              | none => o.hyperparameters
              | some d => setParamsDict o.hyperparameters d
    let hk := match cache_dict with
              | none => (h, o.cacheKeys)
              | some d => applyCachePatch h o.cacheKeys d
    writeObj hk.1 j { o with hyperparameters := H2, cacheKeys := hk.2 }

/-- The operations a caller may perform on the copy afterwards. -/
inductive HOp where
  | update : List ℝ → List ℝ → String → Option ℝ → HOp
  | step : HOp
  | resetStep : HOp
  | setParams : Option (List (String × HVal)) → Option (List (String × ECell)) → HOp

def doOp (h : Heap) (j : ℕ) : HOp → Option Heap
  | .update p g n l => doUpdate h j p g n l
  | .step => doStep h j
  | .resetStep => doResetStep h j
  | .setParams hd cd => doSetParams h j hd cd

/-- Run a sequence of operations on object `j`; a raised error aborts. -/
def runOps (h : Heap) (j : ℕ) : List HOp → Option Heap
  | [] => some h
  | op :: ops =>
    match doOp h j op with
    | none => none
    | some h2 => runOps h2 j ops

/-- Rebind a cache dict to consecutive fresh cell references starting at
`base` (used by `deepcopy`). -/
def renumberKeys (base : ℕ) : List (String × ℕ) → List (String × ℕ)
  | [] => []
  | p :: ps => (p.1, base) :: renumberKeys (base + 1) ps

/-- The cloned contents of an object's cache cells, in key order. -/
def cloneCells (h : Heap) : List (String × ℕ) → List ECell
  | [] => []
  | p :: ps => (cellAt h p.2).getD (ECell.arr []) :: cloneCells h ps

/-- `OptimizerBase.copy`: `deepcopy(self)` — a new object whose dicts
are fresh and whose cache entries are freshly allocated clones, sharing
no cell with the original.  Returns the new heap and the new object's
reference. -/
def copyOp (h : Heap) (i : ℕ) : Option (Heap × ℕ) :=
  (h.objs.get? i).map fun o =>
    ({ cells := h.cells ++ cloneCells h o.cacheKeys,
       objs := h.objs ++ [{ o with cacheKeys := renumberKeys h.cells.length o.cacheKeys }] },
     h.objs.length)

/-- The cell references reachable from object `i` (its cache entries). -/
def reachRefs (h : Heap) (i : ℕ) : List ℕ :=
  match h.objs.get? i with
  | none => []
  | some o => o.cacheKeys.map Prod.snd

/-- Everything the caller can observe of object `i`: the object record
(class, hyperparameters, `cur_step`, scheduler, cache keys) together
with the dereferenced contents of its cache. -/
def observe (h : Heap) (i : ℕ) : Option (HObj × List (String × Option ECell)) :=
  (h.objs.get? i).map (fun o => (o, o.cacheKeys.map (fun p => (p.1, cellAt h p.2))))

/-! ## Observables for the RMSProp bound (C6) -/

/-- The gradients supplied for parameter name `n` in a call sequence,
in order. -/
def gradsFor (n : String) (calls : List UpdCall) : List (List ℝ) :=
  (calls.filter (fun c => c.name == n)).map UpdCall.grad

/-- The elementwise maximum of the squared entries at index `i` over a
list of gradients (0 when no gradient has been seen). -/
def maxSqAt (gs : List (List ℝ)) (i : ℕ) : ℝ :=
  (gs.map (fun g => (g.getD i 0) ^ 2)).foldr max 0

/-- The invariant on an RMSProp cache: if name `n` holds a cached
average, it has length `k`, and each entry lies in `[0, B i]`. -/
def rmsInv (cache : List (String × List ℝ)) (n : String) (k : ℕ) (B : ℕ → ℝ) : Prop :=
  ∀ e, dictGet cache n = some e →
    e.length = k ∧ ∀ i, i < k → 0 ≤ e.getD i 0 ∧ e.getD i 0 ≤ B i

/-! ## Frame predicates for the heap model (C8) -/

/-- Everything object `i` can see is unchanged from `h` to `h2`: its
object record, and the contents of every cell of `R` (its reachable
references); the store only grows. -/
def framed (h h2 : Heap) (i : ℕ) (R : List ℕ) : Prop :=
  h2.objs.get? i = h.objs.get? i
  ∧ (∀ r ∈ R, h2.cells.get? r = h.cells.get? r)
  ∧ h.cells.length ≤ h2.cells.length

/-- All references of `R` are valid in a store of `m` cells. -/
def refsBelow (R : List ℕ) (m : ℕ) : Prop :=
  ∀ r ∈ R, r < m

/-! ## Lemmas: dict primitives -/

theorem dictGet_eq_none_iff {α : Type} (d : List (String × α)) (k : String) :
    dictGet d k = none ↔ k ∉ d.map Prod.fst := by
  induction d with
  | nil => simp [dictGet]
  | cons p ps ih =>
    by_cases h : p.1 = k
    · simp [dictGet, h]
    · simp [dictGet, h, ih, Ne.symm h]

theorem dictOverwrite_keys {α : Type} (d : List (String × α)) (k : String) (v : α) :
    (dictOverwrite d k v).map Prod.fst = d.map Prod.fst := by
  induction d with
  | nil => rfl
  | cons p ps ih =>
    by_cases h : p.1 = k
    · simp [dictOverwrite, h, ih]
    · simp [dictOverwrite, h, ih]

theorem dictOverwrite_of_not_contains {α : Type} {d : List (String × α)} {k : String} (v : α)
    (h : dictContains d k = false) : dictOverwrite d k v = d := by
  induction d with
  | nil => rfl
  | cons p ps ih =>
    by_cases hp : p.1 = k
    · simp [dictContains, dictGet, hp] at h
    · simp only [dictContains, dictGet, if_neg hp] at h
      simp only [dictOverwrite, if_neg hp]
      rw [ih h]

theorem dictGet_overwrite_self {α : Type} {d : List (String × α)} {k : String} (v : α)
    (h : dictContains d k = true) : dictGet (dictOverwrite d k v) k = some v := by
  induction d with
  | nil => simp [dictContains, dictGet] at h
  | cons p ps ih =>
    by_cases hp : p.1 = k
    · simp [dictOverwrite, hp, dictGet]
    · simp only [dictContains, dictGet, if_neg hp] at h
      simp [dictOverwrite, hp, dictGet, ih h]

theorem dictGet_overwrite_ne {α : Type} (d : List (String × α)) {k m : String} (v : α)
    (h : m ≠ k) : dictGet (dictOverwrite d k v) m = dictGet d m := by
  induction d with
  | nil => rfl
  | cons p ps ih =>
    by_cases hp : p.1 = k
    · subst hp
      simp [dictOverwrite, dictGet, Ne.symm h, ih]
    · by_cases hm : p.1 = m
      · simp [dictOverwrite, hp, dictGet, hm, h]
      · simp [dictOverwrite, hp, dictGet, hm, h, ih]

theorem dictContains_overwrite {α : Type} (d : List (String × α)) (k m : String) (v : α) :
    dictContains (dictOverwrite d k v) m = dictContains d m := by
  by_cases hm : m = k
  · subst hm
    rcases h : dictContains d m with _ | _
    · rw [dictOverwrite_of_not_contains v h, h]
    · simp [dictContains, dictGet_overwrite_self v h, h]
  · simp [dictContains, dictGet_overwrite_ne d v hm]

theorem dictGet_append_of_none {α : Type} {d : List (String × α)} {k : String}
    (l : List (String × α)) (h : dictGet d k = none) : dictGet (d ++ l) k = dictGet l k := by
  induction d with
  | nil => rfl
  | cons p ps ih =>
    by_cases hp : p.1 = k
    · simp [dictGet, hp] at h
    · simp only [dictGet, if_neg hp] at h
      simpa [dictGet, hp] using ih h

theorem dictGet_append_of_some {α : Type} {d : List (String × α)} {k : String} {v : α}
    (l : List (String × α)) (h : dictGet d k = some v) : dictGet (d ++ l) k = some v := by
  induction d with
  | nil => simp [dictGet] at h
  | cons p ps ih =>
    by_cases hp : p.1 = k
    · simp only [dictGet, if_pos hp] at h
      simp [dictGet, hp, h]
    · simp only [dictGet, if_neg hp] at h
      simpa [dictGet, hp] using ih h

/-! ## Lemmas: set_params -/

theorem dictContains_eq_false_iff {α : Type} (d : List (String × α)) (k : String) :
    dictContains d k = false ↔ dictGet d k = none := by
  cases h : dictGet d k <;> simp [dictContains, h]

theorem setParamsDict_cons {α : Type} (d : List (String × α)) (kv : String × α)
    (rest : List (String × α)) :
    setParamsDict d (kv :: rest)
      = setParamsDict (if dictContains d kv.1 then dictOverwrite d kv.1 kv.2 else d) rest := rfl

theorem setParamsDict_keys {α : Type} (patch d : List (String × α)) :
    (setParamsDict d patch).map Prod.fst = d.map Prod.fst := by
  induction patch generalizing d with
  | nil => rfl
  | cons kv rest ih =>
    rw [setParamsDict_cons]
    by_cases h : dictContains d kv.1
    · rw [if_pos h, ih, dictOverwrite_keys]
    · rw [if_neg h]
      exact ih d

theorem setParamsDict_get_of_not_in_patch {α : Type} {patch : List (String × α)} {k : String}
    (d : List (String × α)) (h : dictGet patch k = none) :
    dictGet (setParamsDict d patch) k = dictGet d k := by
  induction patch generalizing d with
  | nil => rfl
  | cons kv rest ih =>
    by_cases hk : kv.1 = k
    · simp [dictGet, hk] at h
    · simp only [dictGet, if_neg hk] at h
      rw [setParamsDict_cons]
      by_cases hc : dictContains d kv.1
      · rw [if_pos hc, ih _ h, dictGet_overwrite_ne _ _ (Ne.symm hk)]
      · rw [if_neg hc]
        exact ih d h

theorem setParamsDict_get_of_contains {α : Type} {patch : List (String × α)} {k : String} {v : α}
    (d : List (String × α)) (hnd : (patch.map Prod.fst).Nodup)
    (hc : dictContains d k = true) (hp : dictGet patch k = some v) :
    dictGet (setParamsDict d patch) k = some v := by
  induction patch generalizing d with
  | nil => simp [dictGet] at hp
  | cons kv rest ih =>
    simp only [List.map_cons, List.nodup_cons] at hnd
    rw [setParamsDict_cons]
    by_cases hk : kv.1 = k
    · simp only [dictGet, if_pos hk] at hp
      rw [if_pos (hk ▸ hc)]
      have hrest : dictGet rest k = none := by
        rw [dictGet_eq_none_iff]
        exact hk ▸ hnd.1
      rw [setParamsDict_get_of_not_in_patch _ hrest, hk, dictGet_overwrite_self _ (hk ▸ hc), hp]
    · simp only [dictGet, if_neg hk] at hp
      by_cases hcc : dictContains d kv.1
      · rw [if_pos hcc]
        exact ih _ hnd.2 (by rw [dictContains_overwrite]; exact hc) hp
      · rw [if_neg hcc]
        exact ih d hnd.2 hc hp

theorem setParamsDict_get_of_not_contains {α : Type} (patch : List (String × α))
    {d : List (String × α)} {k : String} (h : dictContains d k = false) :
    dictGet (setParamsDict d patch) k = none := by
  rw [dictGet_eq_none_iff, setParamsDict_keys]
  rw [dictContains_eq_false_iff, dictGet_eq_none_iff] at h
  exact h

/-- **C7.** `set_params` overwrites only keys that already exist: every
key of `hparam_dict` present in `hyperparameters` is overwritten, every
key of `cache_dict` present in the cache is overwritten wholesale, keys
absent from the existing structures are silently ignored (lookups still
miss), no new keys are inserted (the key lists are unchanged), keys not
patched keep their values, `cur_step` is untouched, and no error is
raised (the operation is total). -/
theorem c7_set_params_update_in_place {α β : Type}
    (st : BaseState α β) (hd : List (String × α)) (cd : List (String × β)) :
    ((OptimizerBase.set_params st (some hd) (some cd)).hyperparameters.map Prod.fst
        = st.hyperparameters.map Prod.fst)
    ∧ ((OptimizerBase.set_params st (some hd) (some cd)).cache.map Prod.fst
        = st.cache.map Prod.fst)
    ∧ (OptimizerBase.set_params st (some hd) (some cd)).cur_step = st.cur_step
    ∧ (∀ k v, (hd.map Prod.fst).Nodup → dictContains st.hyperparameters k →
        dictGet hd k = some v →
        dictGet (OptimizerBase.set_params st (some hd) (some cd)).hyperparameters k = some v)
    ∧ (∀ k v, (cd.map Prod.fst).Nodup → dictContains st.cache k → dictGet cd k = some v →
        dictGet (OptimizerBase.set_params st (some hd) (some cd)).cache k = some v)
    ∧ (∀ k, dictContains st.hyperparameters k = false →
        dictGet (OptimizerBase.set_params st (some hd) (some cd)).hyperparameters k = none)
    ∧ (∀ k, dictContains st.cache k = false →
        dictGet (OptimizerBase.set_params st (some hd) (some cd)).cache k = none)
    ∧ (∀ k, dictGet hd k = none →
        dictGet (OptimizerBase.set_params st (some hd) (some cd)).hyperparameters k
          = dictGet st.hyperparameters k)
    ∧ (∀ k, dictGet cd k = none →
        dictGet (OptimizerBase.set_params st (some hd) (some cd)).cache k
          = dictGet st.cache k) := by
  refine ⟨setParamsDict_keys hd st.hyperparameters, setParamsDict_keys cd st.cache, rfl,
    ?_, ?_, ?_, ?_, ?_, ?_⟩
  · exact fun k v hnd hc hp => setParamsDict_get_of_contains _ hnd hc hp
  · exact fun k v hnd hc hp => setParamsDict_get_of_contains _ hnd hc hp
  · exact fun k h => setParamsDict_get_of_not_contains hd h
  · exact fun k h => setParamsDict_get_of_not_contains cd h
  · exact fun k h => setParamsDict_get_of_not_in_patch _ h
  · exact fun k h => setParamsDict_get_of_not_in_patch _ h

/-- Witness for C7 at a concrete instance: an optimizer state with
hyperparameter key `"lr"` and cache key `"w"`, patched with an existing
key (overwritten), an unknown key `"bogus"` (silently ignored), and a
cache overwrite. -/
theorem c7_witness :
    ((OptimizerBase.set_params (⟨[("lr", 1)], [("w", 5)], 3⟩ : BaseState ℕ ℕ)
        (some [("lr", 7), ("bogus", 9)]) (some [("w", 2)])).hyperparameters.map Prod.fst
      = ["lr"])
    ∧ (([("lr", (7:ℕ)), ("bogus", 9)].map Prod.fst).Nodup
      ∧ dictContains [("lr", (1:ℕ))] "lr" = true
      ∧ dictGet [("lr", (7:ℕ)), ("bogus", 9)] "lr" = some 7
      ∧ dictGet (OptimizerBase.set_params (⟨[("lr", 1)], [("w", 5)], 3⟩ : BaseState ℕ ℕ)
          (some [("lr", 7), ("bogus", 9)]) (some [("w", 2)])).hyperparameters "lr" = some 7)
    ∧ (dictContains [("lr", (1:ℕ))] "bogus" = false
      ∧ dictGet (OptimizerBase.set_params (⟨[("lr", 1)], [("w", 5)], 3⟩ : BaseState ℕ ℕ)
          (some [("lr", 7), ("bogus", 9)]) (some [("w", 2)])).hyperparameters "bogus" = none)
    ∧ dictGet (OptimizerBase.set_params (⟨[("lr", 1)], [("w", 5)], 3⟩ : BaseState ℕ ℕ)
        (some [("lr", 7), ("bogus", 9)]) (some [("w", 2)])).cache "w" = some 2
    ∧ (OptimizerBase.set_params (⟨[("lr", 1)], [("w", 5)], 3⟩ : BaseState ℕ ℕ)
        (some [("lr", 7), ("bogus", 9)]) (some [("w", 2)])).cur_step = 3 := by
  have h := c7_set_params_update_in_place (⟨[("lr", 1)], [("w", 5)], 3⟩ : BaseState ℕ ℕ)
    [("lr", 7), ("bogus", 9)] [("w", 2)]
  refine ⟨by rw [h.1]; rfl, ⟨by decide, by decide, by decide, ?_⟩, ⟨by decide, ?_⟩, ?_, h.2.2.1⟩
  · exact h.2.2.2.1 "lr" 7 (by decide) (by decide) (by decide)
  · exact h.2.2.2.2.2.1 "bogus" (by decide)
  · exact h.2.2.2.2.1 "w" 2 (by decide) (by decide) (by decide)

/-! ## Lemmas: tensor primitives and clipping -/

theorem sum_map_sq_nonneg (g : List ℝ) : 0 ≤ (g.map (fun x => x ^ 2)).sum := by
  apply List.sum_nonneg
  intro x hx
  obtain ⟨y, _, rfl⟩ := List.mem_map.mp hx
  positivity

theorem l2norm_nonneg (g : List ℝ) : 0 ≤ l2norm g :=
  Real.sqrt_nonneg _

theorem l2norm_eq_zero_of_allZero {g : List ℝ} (h : ∀ x ∈ g, x = 0) : l2norm g = 0 := by
  have hs : (g.map (fun x => x ^ 2)).sum = 0 := by
    apply List.sum_eq_zero
    intro y hy
    obtain ⟨x, hx, rfl⟩ := List.mem_map.mp hy
    rw [h x hx]
    norm_num
  simp only [l2norm, hs, Real.sqrt_zero]

theorem sum_map_mul_const (k : ℝ) (f : ℝ → ℝ) (l : List ℝ) :
    (l.map (fun x => k * f x)).sum = k * (l.map f).sum := by
  induction l with
  | nil => simp
  | cons a t ih => simp [ih]; ring

/-- Scaling every entry by `s` scales the L2 norm by `|s|`. -/
theorem l2norm_smul (g : List ℝ) (s : ℝ) :
    l2norm (g.map (fun x => x * s)) = |s| * l2norm g := by
  simp only [l2norm, List.map_map]
  have h1 : ((fun x => x ^ 2) ∘ fun x => x * s) = fun x => s ^ 2 * x ^ 2 := by
    funext x
    simp [Function.comp]
    ring
  rw [h1, sum_map_mul_const, Real.sqrt_mul (sq_nonneg s), Real.sqrt_sq_eq_abs]

theorem clipGrad_length (cn : Option ℝ) (g : List ℝ) : (clipGrad cn g).length = g.length := by
  cases cn with
  | none => rfl
  | some c =>
    simp only [clipGrad]
    split
    · exact List.length_map g _
    · rfl

/-- A gradient of zeros is never clipped (its norm, 0, never exceeds a
nonnegative or absent `clip_norm`). -/
theorem clipGrad_allZero {cn : Option ℝ} {g : List ℝ}
    (hcn : ∀ c, cn = some c → 0 ≤ c) (h : ∀ x ∈ g, x = 0) : clipGrad cn g = g := by
  cases cn with
  | none => rfl
  | some c =>
    simp only [clipGrad]
    rw [if_neg]
    rw [l2norm_eq_zero_of_allZero h]
    exact not_lt.mpr (hcn c rfl)

/-- **C3.** Gradient clipping, as used by every optimizer's `update`
(all four share the `clipGrad` block): with `clip_norm = c > 0` set, a
gradient whose L2 norm exceeds `c` is rescaled to have L2 norm exactly
`c`; a gradient whose norm is at most `c` is used unmodified; with
`clip_norm = None` no gradient is ever modified. -/
theorem c3_gradient_clipping (c : ℝ) (g : List ℝ) (hc : 0 < c) :
    (l2norm g > c → l2norm (clipGrad (some c) g) = c)
    ∧ (l2norm g ≤ c → clipGrad (some c) g = g)
    ∧ (∀ g2 : List ℝ, clipGrad none g2 = g2) := by
  refine ⟨?_, ?_, fun _ => rfl⟩
  · intro hgt
    have hn : 0 < l2norm g := lt_trans hc hgt
    simp only [clipGrad, if_pos hgt]
    have h1 : (fun x => x * c / l2norm g) = fun x => x * (c / l2norm g) := by
      funext x
      rw [mul_div_assoc]
    rw [h1, l2norm_smul, abs_of_nonneg (div_nonneg hc.le hn.le), div_mul_cancel₀ c hn.ne']
  · intro hle
    simp only [clipGrad, if_neg (not_lt.mpr hle)]

/-- Witness for C3: `clip_norm = 3`; the gradient `[4]` (norm 4 > 3) is
clipped to norm exactly 3, the gradient `[1]` (norm 1 ≤ 3) is unmodified. -/
theorem c3_witness :
    (0 < (3:ℝ))
    ∧ l2norm [(4:ℝ)] > 3 ∧ l2norm (clipGrad (some 3) [(4:ℝ)]) = 3
    ∧ l2norm [(1:ℝ)] ≤ 3 ∧ clipGrad (some 3) [(1:ℝ)] = [1] := by
  have h4 : l2norm [(4:ℝ)] = 4 := by
    simp only [l2norm, List.map_cons, List.map_nil, List.sum_cons, List.sum_nil]
    rw [show (4:ℝ) ^ 2 + 0 = 4 ^ 2 by ring, Real.sqrt_sq (by norm_num : (0:ℝ) ≤ 4)]
  have h1 : l2norm [(1:ℝ)] = 1 := by
    simp only [l2norm, List.map_cons, List.map_nil, List.sum_cons, List.sum_nil]
    rw [show (1:ℝ) ^ 2 + 0 = 1 ^ 2 by ring, Real.sqrt_sq (by norm_num : (0:ℝ) ≤ 1)]
  have hgt : l2norm [(4:ℝ)] > 3 := by rw [h4]; norm_num
  have hle : l2norm [(1:ℝ)] ≤ 3 := by rw [h1]; norm_num
  exact ⟨by norm_num, hgt, (c3_gradient_clipping 3 [4] (by norm_num)).1 hgt, hle,
    (c3_gradient_clipping 3 [1] (by norm_num)).2.1 hle⟩

/-! ## Lemmas: zero gradients (C1) -/

theorem allZero_map {g : List ℝ} {f : ℝ → ℝ} (h : ∀ x ∈ g, x = 0) (hf : f 0 = 0) :
    ∀ y ∈ g.map f, y = 0 := by
  intro y hy
  obtain ⟨x, hx, rfl⟩ := List.mem_map.mp hy
  rw [h x hx, hf]

theorem allZero_zerosLike (g : List ℝ) : ∀ x ∈ zerosLike g, x = 0 := by
  intro x hx
  obtain ⟨y, _, rfl⟩ := List.mem_map.mp hx
  rfl

theorem zerosLike_length (g : List ℝ) : (zerosLike g).length = g.length :=
  List.length_map g _

theorem bop_of_eq_length {f : ℝ → ℝ → ℝ} {a b : List ℝ} (h : a.length = b.length) :
    bop f a b = some (List.zipWith f a b) := by
  simp [bop, h]

theorem ibop_of_eq_length {f : ℝ → ℝ → ℝ} {a b : List ℝ} (h : b.length = a.length) :
    ibop f a b = some (List.zipWith f a b) := by
  simp [ibop, h]

theorem zipWith_allZero {f : ℝ → ℝ → ℝ} (hf : f 0 0 = 0) :
    ∀ {a b : List ℝ}, (∀ x ∈ a, x = 0) → (∀ y ∈ b, y = 0) →
      ∀ z ∈ List.zipWith f a b, z = 0 := by
  intro a
  induction a with
  | nil => intro b _ _ z hz; simp at hz
  | cons x xs ih =>
    intro b ha hb z hz
    cases b with
    | nil => simp at hz
    | cons y ys =>
      simp only [List.zipWith_cons_cons, List.mem_cons] at hz
      rcases hz with hz | hz
      · rw [hz, ha x (List.mem_cons_self x xs), hb y (List.mem_cons_self y ys), hf]
      · exact ih (fun u hu => ha u (List.mem_cons_of_mem x hu))
          (fun u hu => hb u (List.mem_cons_of_mem y hu)) z hz

theorem zipWith_allZero_left {f : ℝ → ℝ → ℝ} (hf : ∀ y, f 0 y = 0) :
    ∀ {a b : List ℝ}, (∀ x ∈ a, x = 0) → ∀ z ∈ List.zipWith f a b, z = 0 := by
  intro a
  induction a with
  | nil => intro b _ z hz; simp at hz
  | cons x xs ih =>
    intro b ha z hz
    cases b with
    | nil => simp at hz
    | cons y ys =>
      simp only [List.zipWith_cons_cons, List.mem_cons] at hz
      rcases hz with hz | hz
      · rw [hz, ha x (List.mem_cons_self x xs), hf]
      · exact ih (fun u hu => ha u (List.mem_cons_of_mem x hu)) z hz

/-- Subtracting an all-zero list of equal length is the identity
(`param - update = param` when the update term is zero). -/
theorem zipWith_sub_allZero : ∀ {a b : List ℝ}, (∀ y ∈ b, y = 0) → a.length = b.length →
    List.zipWith (fun x y => x - y) a b = a := by
  intro a
  induction a with
  | nil => intro b _ _; rfl
  | cons x xs ih =>
    intro b hb hl
    cases b with
    | nil => simp at hl
    | cons y ys =>
      simp only [List.zipWith_cons_cons]
      rw [hb y (List.mem_cons_self y ys), sub_zero,
        ih (fun u hu => hb u (List.mem_cons_of_mem y hu)) (by simpa using hl)]

theorem zipWith_length_of_eq {f : ℝ → ℝ → ℝ} {a b : List ℝ} (h : a.length = b.length) :
    (List.zipWith f a b).length = a.length := by
  rw [List.length_zipWith, h, min_self]

/-- With a zero gradient and a zero velocity, the SGD update term is
exactly zero and the parameter is returned unchanged. -/
theorem sgdCore_zero_grad (momentum lr : ℝ) {cn : Option ℝ} {v param g : List ℝ}
    (hcn : ∀ c, cn = some c → 0 ≤ c) (hg : ∀ x ∈ g, x = 0) (hv : ∀ x ∈ v, x = 0)
    (hvl : v.length = g.length) (hl : g.length = param.length) :
    ∃ upd, sgdCore momentum cn lr v param g = some (upd, param) := by
  simp only [sgdCore, clipGrad_allZero hcn hg]
  have h1 : (v.map (fun x => momentum * x)).length = (g.map (fun x => lr * x)).length := by
    simpa using hvl
  rw [bop_of_eq_length h1, Option.some_bind]
  set upd := List.zipWith (fun x y => x + y) (v.map (fun x => momentum * x))
    (g.map (fun x => lr * x)) with hupd
  have hz : ∀ z ∈ upd, z = 0 :=
    zipWith_allZero (by norm_num) (allZero_map hv (by norm_num)) (allZero_map hg (by norm_num))
  have hul : param.length = upd.length := by
    rw [hupd, zipWith_length_of_eq h1, List.length_map, hvl, hl]
  rw [bop_of_eq_length hul, Option.some_bind, zipWith_sub_allZero hz hul]
  exact ⟨upd, rfl⟩

/-- With a zero gradient and a zero cached sum, the AdaGrad update term
is exactly zero. -/
theorem adagradCore_zero_grad (eps lr : ℝ) {cn : Option ℝ} {v param g : List ℝ}
    (hcn : ∀ c, cn = some c → 0 ≤ c) (heps : 0 < eps) (hg : ∀ x ∈ g, x = 0)
    (hv : ∀ x ∈ v, x = 0) (hvl : v.length = g.length) (hl : g.length = param.length) :
    ∃ s, adagradCore eps cn lr v param g = some (s, param) := by
  simp only [adagradCore, clipGrad_allZero hcn hg]
  have h1 : (g.map (fun x => x ^ 2)).length = v.length := by simpa using hvl.symm
  rw [ibop_of_eq_length h1, Option.some_bind]
  set sumSq := List.zipWith (fun x y => x + y) v (g.map (fun x => x ^ 2)) with hsum
  have hsl : sumSq.length = g.length := by
    rw [hsum, zipWith_length_of_eq h1.symm, hvl]
  have h2 : (g.map (fun x => lr * x)).length = (sumSq.map (fun s => Real.sqrt s + eps)).length := by
    simp [hsl]
  rw [bop_of_eq_length h2, Option.some_bind]
  set upd := List.zipWith (fun x s => x / s) (g.map (fun x => lr * x))
    (sumSq.map (fun s => Real.sqrt s + eps)) with hupd
  have hz : ∀ z ∈ upd, z = 0 :=
    zipWith_allZero_left (fun y => zero_div y) (allZero_map hg (by norm_num))
  have hul : param.length = upd.length := by
    rw [hupd, zipWith_length_of_eq h2]
    simp [hl]
  rw [bop_of_eq_length hul, Option.some_bind, zipWith_sub_allZero hz hul]
  exact ⟨sumSq, rfl⟩

/-- With a zero gradient and a zero cached average, the RMSProp update
term is exactly zero. -/
theorem rmspropCore_zero_grad (decay eps lr : ℝ) {cn : Option ℝ} {v param g : List ℝ}
    (hcn : ∀ c, cn = some c → 0 ≤ c) (heps : 0 < eps) (hg : ∀ x ∈ g, x = 0)
    (hv : ∀ x ∈ v, x = 0) (hvl : v.length = g.length) (hl : g.length = param.length) :
    ∃ s, rmspropCore decay eps cn lr v param g = some (s, param) := by
  simp only [rmspropCore, clipGrad_allZero hcn hg]
  have h1 : v.length = (g.map (fun x => x ^ 2)).length := by simpa using hvl
  rw [bop_of_eq_length h1, Option.some_bind]
  set avgSq := List.zipWith (fun x y => decay * x + (1 - decay) * y) v
    (g.map (fun x => x ^ 2)) with havg
  have hsl : avgSq.length = g.length := by
    rw [havg, zipWith_length_of_eq h1, hvl]
  have h2 : (g.map (fun x => lr * x)).length = (avgSq.map (fun s => Real.sqrt s + eps)).length := by
    simp [hsl]
  rw [bop_of_eq_length h2, Option.some_bind]
  set upd := List.zipWith (fun x s => x / s) (g.map (fun x => lr * x))
    (avgSq.map (fun s => Real.sqrt s + eps)) with hupd
  have hz : ∀ z ∈ upd, z = 0 :=
    zipWith_allZero_left (fun y => zero_div y) (allZero_map hg (by norm_num))
  have hul : param.length = upd.length := by
    rw [hupd, zipWith_length_of_eq h2]
    simp [hl]
  rw [bop_of_eq_length hul, Option.some_bind, zipWith_sub_allZero hz hul]
  exact ⟨avgSq, rfl⟩

/-- With a zero gradient and a fresh (all-zero) Adam entry, the
bias-corrected mean is zero and the parameter is returned unchanged,
whatever the variance estimate ends up being. -/
theorem adamCore_zero_grad (d1 d2 eps lr : ℝ) {cn : Option ℝ} {param g : List ℝ}
    (e : AdamEntry) (hcn : ∀ c, cn = some c → 0 ≤ c) (heps : 0 < eps)
    (hd1 : d1 < 1) (hd2 : d2 < 1) (hg : ∀ x ∈ g, x = 0)
    (hm : ∀ x ∈ e.mean, x = 0) (hml : e.mean.length = g.length)
    (hvl : e.var.length = g.length) (hl : g.length = param.length) :
    ∃ e2, adamCore d1 d2 eps cn lr e param g = some (e2, param) := by
  simp only [adamCore, clipGrad_allZero hcn hg]
  have h1 : e.var.length = (g.map (fun x => x ^ 2)).length := by simpa using hvl
  rw [bop_of_eq_length h1, Option.some_bind]
  set var2 := List.zipWith (fun x y => d2 * x + (1 - d2) * y) e.var
    (g.map (fun x => x ^ 2)) with hvar
  have h2 : e.mean.length = g.length := hml
  rw [bop_of_eq_length h2, Option.some_bind]
  set mean2 := List.zipWith (fun x y => d1 * x + (1 - d1) * y) e.mean g with hmean
  have hmz : ∀ z ∈ mean2, z = 0 :=
    zipWith_allZero (by norm_num) hm hg
  have hm2l : mean2.length = g.length := by
    rw [hmean, zipWith_length_of_eq h2, hml]
  have hv2l : var2.length = g.length := by
    rw [hvar, zipWith_length_of_eq h1, hvl]
  have h3 : (mean2.map (fun x => x / (1 - d1 ^ (e.t + 1)))).length
      = ((var2.map (fun x => x / (1 - d2 ^ (e.t + 1)))).map (fun s => Real.sqrt s + eps)).length := by
    simp [hm2l, hv2l]
  rw [bop_of_eq_length h3, Option.some_bind]
  set upd := List.zipWith (fun x s => lr * x / s)
    (mean2.map (fun x => x / (1 - d1 ^ (e.t + 1))))
    ((var2.map (fun x => x / (1 - d2 ^ (e.t + 1)))).map (fun s => Real.sqrt s + eps)) with hupd
  have hz : ∀ z ∈ upd, z = 0 := by
    apply zipWith_allZero_left (fun y => by rw [mul_zero, zero_div])
    exact allZero_map hmz (by rw [zero_div])
  have hul : param.length = upd.length := by
    rw [hupd, zipWith_length_of_eq h3]
    simp [hm2l, hl]
  rw [bop_of_eq_length hul, Option.some_bind, zipWith_sub_allZero hz hul]
  exact ⟨_, rfl⟩

/-- **C1.** For every optimizer, an `update` with an all-zero gradient on
a parameter name not yet in the cache returns the parameter unchanged:
the SGD, AdaGrad and RMSProp update terms are exactly zero, and Adam's
update is zero because its bias-corrected mean is zero regardless of the
variance estimate.  The hypotheses (`clip_norm` nonnegative when set,
`0 < eps`, decays `< 1`) are the valid hyperparameter ranges under which
numpy computes no `nan`. -/
theorem c1_zero_grad_fresh_name_keeps_param :
    (∀ (st : SGDState) (param g : List ℝ) (n : String) (l : Option ℝ),
      (∀ c, st.hyper.clip_norm = some c → 0 ≤ c) → (∀ x ∈ g, x = 0) →
      g.length = param.length → dictGet st.cache n = none →
      (sgdUpdate st param g n l).map Prod.fst = some param)
    ∧ (∀ (st : AdaGradState) (param g : List ℝ) (n : String) (l : Option ℝ),
      (∀ c, st.hyper.clip_norm = some c → 0 ≤ c) → 0 < st.hyper.eps → (∀ x ∈ g, x = 0) →
      g.length = param.length → dictGet st.cache n = none →
      (adagradUpdate st param g n l).map Prod.fst = some param)
    ∧ (∀ (st : RMSPropState) (param g : List ℝ) (n : String) (l : Option ℝ),
      (∀ c, st.hyper.clip_norm = some c → 0 ≤ c) → 0 < st.hyper.eps → (∀ x ∈ g, x = 0) →
      g.length = param.length → dictGet st.cache n = none →
      (rmspropUpdate st param g n l).map Prod.fst = some param)
    ∧ (∀ (st : AdamState) (param g : List ℝ) (n : String) (l : Option ℝ),
      (∀ c, st.hyper.clip_norm = some c → 0 ≤ c) → 0 < st.hyper.eps →
      st.hyper.decay1 < 1 → st.hyper.decay2 < 1 → (∀ x ∈ g, x = 0) →
      g.length = param.length → dictGet st.cache n = none →
      (adamUpdate st param g n l).map Prod.fst = some param) := by
  refine ⟨?_, ?_, ?_, ?_⟩
  · intro st param g n l hcn hg hl hfresh
    obtain ⟨upd, hcore⟩ := sgdCore_zero_grad st.hyper.momentum (st.lr_scheduler st.cur_step l)
      hcn hg (allZero_zerosLike g) (zerosLike_length g) hl
    simp only [sgdUpdate, hfresh, Option.getD_none, hcore, Option.some_bind]
    rfl
  · intro st param g n l hcn heps hg hl hfresh
    obtain ⟨s, hcore⟩ := adagradCore_zero_grad st.hyper.eps (st.lr_scheduler st.cur_step l)
      hcn heps hg (allZero_zerosLike g) (zerosLike_length g) hl
    simp only [adagradUpdate, hfresh, Option.getD_none, hcore, Option.some_bind]
    rfl
  · intro st param g n l hcn heps hg hl hfresh
    obtain ⟨s, hcore⟩ := rmspropCore_zero_grad st.hyper.decay st.hyper.eps
      (st.lr_scheduler st.cur_step l) hcn heps hg (allZero_zerosLike g) (zerosLike_length g) hl
    simp only [rmspropUpdate, hfresh, Option.getD_none, hcore, Option.some_bind]
    rfl
  · intro st param g n l hcn heps hd1 hd2 hg hl hfresh
    obtain ⟨e2, hcore⟩ := adamCore_zero_grad st.hyper.decay1 st.hyper.decay2 st.hyper.eps
      (st.lr_scheduler st.cur_step l) ⟨0, zerosLike g, zerosLike g⟩ hcn heps hd1 hd2 hg
      (allZero_zerosLike g) (zerosLike_length g) (zerosLike_length g) hl
    simp only [adamUpdate, hfresh, Option.getD_none, hcore, Option.some_bind]
    rfl

/-- Witness for C1: all four optimizers at `param = [1]`, `grad = [0]`,
fresh name `"w"`, default-style hyperparameters. -/
theorem c1_witness :
    (sgdUpdate ⟨[], 0, ⟨0.01, 0.9, none⟩, fun _ _ => 0.01⟩ [1] [0] "w" none).map Prod.fst
      = some [1]
    ∧ (adagradUpdate ⟨[], 0, ⟨0.01, 0.0000001, none⟩, fun _ _ => 0.01⟩ [1] [0] "w" none).map
        Prod.fst = some [1]
    ∧ (rmspropUpdate ⟨[], 0, ⟨0.001, 0.9, 0.0000001, none⟩, fun _ _ => 0.001⟩ [1] [0] "w"
        none).map Prod.fst = some [1]
    ∧ (adamUpdate ⟨[], 0, ⟨0.001, 0.9, 0.999, 0.0000001, none⟩, fun _ _ => 0.001⟩ [1] [0] "w"
        none).map Prod.fst = some [1] := by
  have h := c1_zero_grad_fresh_name_keeps_param
  refine ⟨?_, ?_, ?_, ?_⟩
  · exact h.1 _ [1] [0] "w" none (by intro c hc; simp at hc) (by simp) (by simp) rfl
  · exact h.2.1 _ [1] [0] "w" none (by intro c hc; simp at hc) (by norm_num) (by simp)
      (by simp) rfl
  · exact h.2.2.1 _ [1] [0] "w" none (by intro c hc; simp at hc) (by norm_num) (by simp)
      (by simp) rfl
  · exact h.2.2.2 _ [1] [0] "w" none (by intro c hc; simp at hc) (by norm_num) (by norm_num)
      (by norm_num) (by simp) (by simp) rfl

/-- **C9.** The concrete SGD scenario: `lr=0.1, momentum=0.9`,
`clip_norm` unset, constant-rate scheduler.  First `update` with
`param=[1.0], grad=[2.0], name="w"` caches velocity `[0.2]` and returns
`[0.8]`; the second with `param=[0.8], grad=[2.0]` caches `[0.38]` and
returns `[0.42]`. -/
theorem c9_sgd_concrete_scenario :
    ∃ st1 st2 : SGDState,
      sgdUpdate ⟨[], 0, ⟨0.1, 0.9, none⟩, fun _ _ => 0.1⟩ [1] [2] "w" none = some ([0.8], st1)
      ∧ st1.cache = [("w", [0.2])]
      ∧ sgdUpdate st1 [0.8] [2] "w" none = some ([0.42], st2)
      ∧ st2.cache = [("w", [0.38])] := by
  refine ⟨⟨[("w", [0.2])], 0, ⟨0.1, 0.9, none⟩, fun _ _ => 0.1⟩,
    ⟨[("w", [0.38])], 0, ⟨0.1, 0.9, none⟩, fun _ _ => 0.1⟩, ?_, rfl, ?_, rfl⟩
  · simp [sgdUpdate, sgdCore, clipGrad, dictContains, dictGet, dictOverwrite, zerosLike, bop]
    norm_num
  · simp [sgdUpdate, sgdCore, clipGrad, dictContains, dictGet, dictOverwrite, zerosLike, bop]
    norm_num

/-- **C10.** Invoking an optimizer instance as a callable
(`OptimizerBase.__call__`) returns the same result and causes the same
state change as calling its `update` method with the same arguments, for
every concrete optimizer and argument tuple. -/
theorem c10_call_delegates_to_update (o : Optimizer) (param param_grad : List ℝ)
    (param_name : String) (cur_loss : Option ℝ) :
    Optimizer.call o param param_grad param_name cur_loss
      = Optimizer.update o param param_grad param_name cur_loss := rfl

/-! ## Lemmas: shape errors (C2) -/

theorem bop_none {f : ℝ → ℝ → ℝ} {a b : List ℝ} (h1 : a.length ≠ b.length)
    (h2 : a.length ≠ 1) (h3 : b.length ≠ 1) : bop f a b = none := by
  simp [bop, h1, h2, h3]

theorem ibop_none {f : ℝ → ℝ → ℝ} {a b : List ℝ} (h1 : b.length ≠ a.length)
    (h2 : b.length ≠ 1) : ibop f a b = none := by
  simp [ibop, h1, h2]

theorem bop_some_length_left {f : ℝ → ℝ → ℝ} {a b r : List ℝ} (ha : a.length ≠ 1)
    (h : bop f a b = some r) : r.length = a.length := by
  unfold bop at h
  split_ifs at h with h1 h2
  · injection h with hh
    subst hh
    rw [List.length_zipWith]
    omega
  · injection h with hh
    subst hh
    simp

theorem bop_some_length_right {f : ℝ → ℝ → ℝ} {a b r : List ℝ} (hb : b.length ≠ 1)
    (h : bop f a b = some r) : r.length = b.length := by
  unfold bop at h
  split_ifs at h with h1 h2
  · injection h with hh
    subst hh
    rw [List.length_zipWith]
    omega
  · injection h with hh
    subst hh
    simp

theorem sgdCore_shape_error (momentum : ℝ) (cn : Option ℝ) (lr : ℝ) (v : List ℝ)
    {p g : List ℝ} (hne : p.length ≠ g.length) (hp1 : p.length ≠ 1)
    (hg1 : g.length ≠ 1) : sgdCore momentum cn lr v p g = none := by
  simp only [sgdCore]
  cases h1 : bop (fun x y => x + y) (v.map (fun x => momentum * x))
      ((clipGrad cn g).map (fun x => lr * x)) with
  | none => simp only [Option.none_bind]
  | some upd =>
    simp only [Option.some_bind]
    have hlen : upd.length = g.length := by
      have hb : ((clipGrad cn g).map (fun x => lr * x)).length ≠ 1 := by
        rw [List.length_map, clipGrad_length]
        exact hg1
      rw [bop_some_length_right hb h1, List.length_map, clipGrad_length]
    rw [bop_none (by rw [hlen]; exact hne) hp1 (by rw [hlen]; exact hg1), Option.none_bind]

theorem adagradCore_shape_error (eps : ℝ) (cn : Option ℝ) (lr : ℝ) (v : List ℝ)
    {p g : List ℝ} (hne : p.length ≠ g.length) (hp1 : p.length ≠ 1)
    (hg1 : g.length ≠ 1) : adagradCore eps cn lr v p g = none := by
  simp only [adagradCore]
  cases h1 : ibop (fun x y => x + y) v ((clipGrad cn g).map (fun x => x ^ 2)) with
  | none => simp only [Option.none_bind]
  | some sumSq =>
    simp only [Option.some_bind]
    cases h2 : bop (fun x s => x / s) ((clipGrad cn g).map (fun x => lr * x))
        (sumSq.map (fun s => Real.sqrt s + eps)) with
    | none => simp only [Option.none_bind]
    | some upd =>
      simp only [Option.some_bind]
      have hlen : upd.length = g.length := by
        have ha : ((clipGrad cn g).map (fun x => lr * x)).length ≠ 1 := by
          rw [List.length_map, clipGrad_length]
          exact hg1
        rw [bop_some_length_left ha h2, List.length_map, clipGrad_length]
      rw [bop_none (by rw [hlen]; exact hne) hp1 (by rw [hlen]; exact hg1), Option.none_bind]

theorem rmspropCore_shape_error (decay eps : ℝ) (cn : Option ℝ) (lr : ℝ) (v : List ℝ)
    {p g : List ℝ} (hne : p.length ≠ g.length) (hp1 : p.length ≠ 1)
    (hg1 : g.length ≠ 1) : rmspropCore decay eps cn lr v p g = none := by
  simp only [rmspropCore]
  cases h1 : bop (fun x y => decay * x + (1 - decay) * y) v
      ((clipGrad cn g).map (fun x => x ^ 2)) with
  | none => simp only [Option.none_bind]
  | some avgSq =>
    simp only [Option.some_bind]
    cases h2 : bop (fun x s => x / s) ((clipGrad cn g).map (fun x => lr * x))
        (avgSq.map (fun s => Real.sqrt s + eps)) with
    | none => simp only [Option.none_bind]
    | some upd =>
      simp only [Option.some_bind]
      have hlen : upd.length = g.length := by
        have ha : ((clipGrad cn g).map (fun x => lr * x)).length ≠ 1 := by
          rw [List.length_map, clipGrad_length]
          exact hg1
        rw [bop_some_length_left ha h2, List.length_map, clipGrad_length]
      rw [bop_none (by rw [hlen]; exact hne) hp1 (by rw [hlen]; exact hg1), Option.none_bind]

theorem adamCore_shape_error (d1 d2 eps : ℝ) (cn : Option ℝ) (lr : ℝ) (e : AdamEntry)
    {p g : List ℝ} (hne : p.length ≠ g.length) (hp1 : p.length ≠ 1) (hg1 : g.length ≠ 1) :
    adamCore d1 d2 eps cn lr e p g = none := by
  simp only [adamCore]
  cases h1 : bop (fun x y => d2 * x + (1 - d2) * y) e.var
      ((clipGrad cn g).map (fun x => x ^ 2)) with
  | none => simp only [Option.none_bind]
  | some var2 =>
    simp only [Option.some_bind]
    cases h2 : bop (fun x y => d1 * x + (1 - d1) * y) e.mean (clipGrad cn g) with
    | none => simp only [Option.none_bind]
    | some mean2 =>
      simp only [Option.some_bind]
      have hm2 : mean2.length = g.length := by
        rw [bop_some_length_right (by rw [clipGrad_length]; exact hg1) h2, clipGrad_length]
      cases h3 : bop (fun x s => lr * x / s) (mean2.map (fun x => x / (1 - d1 ^ (e.t + 1))))
          ((var2.map (fun x => x / (1 - d2 ^ (e.t + 1)))).map (fun s => Real.sqrt s + eps)) with
      | none => simp only [Option.none_bind]
      | some upd =>
        simp only [Option.some_bind]
        have hlen : upd.length = g.length := by
          have ha : (mean2.map (fun x => x / (1 - d1 ^ (e.t + 1)))).length ≠ 1 := by
            rw [List.length_map, hm2]
            exact hg1
          rw [bop_some_length_left ha h3, List.length_map, hm2]
        rw [bop_none (by rw [hlen]; exact hne) hp1 (by rw [hlen]; exact hg1),
          Option.none_bind]

theorem sgdCore_cached_shape_error (momentum : ℝ) (cn : Option ℝ) (lr : ℝ) {v : List ℝ}
    (p : List ℝ) {g : List ℝ} (hvg : v.length ≠ g.length) (hv1 : v.length ≠ 1)
    (hg1 : g.length ≠ 1) : sgdCore momentum cn lr v p g = none := by
  simp only [sgdCore]
  rw [bop_none (by simp only [List.length_map, clipGrad_length]; exact hvg)
    (by rw [List.length_map]; exact hv1)
    (by simp only [List.length_map, clipGrad_length]; exact hg1), Option.none_bind]

theorem adagradCore_cached_shape_error (eps : ℝ) (cn : Option ℝ) (lr : ℝ) {v : List ℝ}
    (p : List ℝ) {g : List ℝ} (hgv : g.length ≠ v.length) (hg1 : g.length ≠ 1) :
    adagradCore eps cn lr v p g = none := by
  simp only [adagradCore]
  rw [ibop_none (by simp only [List.length_map, clipGrad_length]; exact hgv)
    (by simp only [List.length_map, clipGrad_length]; exact hg1), Option.none_bind]

theorem rmspropCore_cached_shape_error (decay eps : ℝ) (cn : Option ℝ) (lr : ℝ) {v : List ℝ}
    (p : List ℝ) {g : List ℝ} (hvg : v.length ≠ g.length) (hv1 : v.length ≠ 1)
    (hg1 : g.length ≠ 1) : rmspropCore decay eps cn lr v p g = none := by
  simp only [rmspropCore]
  rw [bop_none (by simp only [List.length_map, clipGrad_length]; exact hvg) hv1
    (by simp only [List.length_map, clipGrad_length]; exact hg1), Option.none_bind]

theorem adamCore_cached_shape_error (d1 d2 eps : ℝ) (cn : Option ℝ) (lr : ℝ) (e : AdamEntry)
    (p : List ℝ) {g : List ℝ} (hmg : e.mean.length ≠ g.length) (hm1 : e.mean.length ≠ 1)
    (hg1 : g.length ≠ 1) : adamCore d1 d2 eps cn lr e p g = none := by
  simp only [adamCore]
  cases h1 : bop (fun x y => d2 * x + (1 - d2) * y) e.var
      ((clipGrad cn g).map (fun x => x ^ 2)) with
  | none => simp only [Option.none_bind]
  | some var2 =>
    simp only [Option.some_bind]
    rw [bop_none (by rw [clipGrad_length]; exact hmg) hm1
      (by rw [clipGrad_length]; exact hg1), Option.none_bind]

/-- **C2 counterexample.**  The claim says a shape mismatch between
`param` and `param_grad` makes `update` fail fast.  But with
`param = [1, 1]` (shape `(2,)`) and `param_grad = [2]` (shape `(1,)`)
`SGD.update` silently broadcasts and returns a result: no optimizer
performs any shape validation, and numpy only raises when the shapes are
not broadcastable. -/
theorem c2_counterexample :
    ([(1:ℝ), 1].length ≠ [(2:ℝ)].length)
    ∧ (sgdUpdate ⟨[], 0, ⟨0.1, 0.0, none⟩, fun _ _ => 0.1⟩ [1, 1] [2] "w" none).isSome
      = true := by
  refine ⟨by simp, ?_⟩
  simp [sgdUpdate, sgdCore, clipGrad, dictContains, dictGet, dictOverwrite, zerosLike, bop]

/-- **C2 (amended).**  No optimizer performs any shape validation; the
only errors are numpy broadcasting errors.  (a) On *every* `update` call
— first-seen or reused name, whatever the cached state — a
`param`/`param_grad` pair that is not broadcastable (different lengths,
neither of length 1) makes the elementwise arithmetic raise, and the
error surfaces to the caller.  (b) Likewise, reusing a name whose cached
tensor is not broadcastable against the new gradient raises; for AdaGrad
the in-place `+=` raises already whenever the gradient's length differs
from the cached length and is not 1, even if the cached tensor has
length 1.  A mismatched but broadcastable `param`/`param_grad` pair is
instead silently broadcast (see the counterexample). -/
theorem c2_amended_nonbroadcastable_shape_error :
    ((∀ (st : SGDState) (p g : List ℝ) (n : String) (l : Option ℝ),
      p.length ≠ g.length → p.length ≠ 1 → g.length ≠ 1 → sgdUpdate st p g n l = none)
    ∧ (∀ (st : AdaGradState) (p g : List ℝ) (n : String) (l : Option ℝ),
      p.length ≠ g.length → p.length ≠ 1 → g.length ≠ 1 → adagradUpdate st p g n l = none)
    ∧ (∀ (st : RMSPropState) (p g : List ℝ) (n : String) (l : Option ℝ),
      p.length ≠ g.length → p.length ≠ 1 → g.length ≠ 1 → rmspropUpdate st p g n l = none)
    ∧ (∀ (st : AdamState) (p g : List ℝ) (n : String) (l : Option ℝ),
      p.length ≠ g.length → p.length ≠ 1 → g.length ≠ 1 → adamUpdate st p g n l = none))
    ∧ ((∀ (st : SGDState) (p g : List ℝ) (n : String) (l : Option ℝ) (v : List ℝ),
      dictGet st.cache n = some v → v.length ≠ g.length → v.length ≠ 1 → g.length ≠ 1 →
      sgdUpdate st p g n l = none)
    ∧ (∀ (st : AdaGradState) (p g : List ℝ) (n : String) (l : Option ℝ) (v : List ℝ),
      dictGet st.cache n = some v → g.length ≠ v.length → g.length ≠ 1 →
      adagradUpdate st p g n l = none)
    ∧ (∀ (st : RMSPropState) (p g : List ℝ) (n : String) (l : Option ℝ) (v : List ℝ),
      dictGet st.cache n = some v → v.length ≠ g.length → v.length ≠ 1 → g.length ≠ 1 →
      rmspropUpdate st p g n l = none)
    ∧ (∀ (st : AdamState) (p g : List ℝ) (n : String) (l : Option ℝ) (e : AdamEntry),
      dictGet st.cache n = some e → e.mean.length ≠ g.length → e.mean.length ≠ 1 →
      g.length ≠ 1 → adamUpdate st p g n l = none)) := by
  refine ⟨⟨?_, ?_, ?_, ?_⟩, ?_, ?_, ?_, ?_⟩
  · intro st p g n l hne hp1 hg1
    simp only [sgdUpdate,
      sgdCore_shape_error st.hyper.momentum st.hyper.clip_norm (st.lr_scheduler st.cur_step l)
        ((dictGet st.cache n).getD (zerosLike g)) hne hp1 hg1, Option.none_bind]
  · intro st p g n l hne hp1 hg1
    simp only [adagradUpdate,
      adagradCore_shape_error st.hyper.eps st.hyper.clip_norm (st.lr_scheduler st.cur_step l)
        ((dictGet st.cache n).getD (zerosLike g)) hne hp1 hg1, Option.none_bind]
  · intro st p g n l hne hp1 hg1
    simp only [rmspropUpdate,
      rmspropCore_shape_error st.hyper.decay st.hyper.eps st.hyper.clip_norm
        (st.lr_scheduler st.cur_step l) ((dictGet st.cache n).getD (zerosLike g))
        hne hp1 hg1, Option.none_bind]
  · intro st p g n l hne hp1 hg1
    simp only [adamUpdate,
      adamCore_shape_error st.hyper.decay1 st.hyper.decay2 st.hyper.eps st.hyper.clip_norm
        (st.lr_scheduler st.cur_step l) ((dictGet st.cache n).getD ⟨0, zerosLike g, zerosLike g⟩)
        hne hp1 hg1, Option.none_bind]
  · intro st p g n l v hv hvg hv1 hg1
    simp only [sgdUpdate, hv, Option.getD_some,
      sgdCore_cached_shape_error st.hyper.momentum st.hyper.clip_norm
        (st.lr_scheduler st.cur_step l) p hvg hv1 hg1, Option.none_bind]
  · intro st p g n l v hv hgv hg1
    simp only [adagradUpdate, hv, Option.getD_some,
      adagradCore_cached_shape_error st.hyper.eps st.hyper.clip_norm
        (st.lr_scheduler st.cur_step l) p hgv hg1, Option.none_bind]
  · intro st p g n l v hv hvg hv1 hg1
    simp only [rmspropUpdate, hv, Option.getD_some,
      rmspropCore_cached_shape_error st.hyper.decay st.hyper.eps st.hyper.clip_norm
        (st.lr_scheduler st.cur_step l) p hvg hv1 hg1, Option.none_bind]
  · intro st p g n l e hv hmg hm1 hg1
    simp only [adamUpdate, hv, Option.getD_some,
      adamCore_cached_shape_error st.hyper.decay1 st.hyper.decay2 st.hyper.eps
        st.hyper.clip_norm (st.lr_scheduler st.cur_step l) e p hmg hm1 hg1, Option.none_bind]

/-- Witness for the amended C2: part (a) at `param = [1,1,1]` vs
`param_grad = [0,0]` on a fresh name; part (b) at `param = [1,1]` (same
length as the gradient, so the error comes from the cache) with a reused
name `"w"` whose cached tensor has length 3 — length 1 for AdaGrad,
where the in-place `+=` still raises. -/
theorem c2_amended_witness :
    ([(1:ℝ), 1, 1].length ≠ [(0:ℝ), 0].length ∧ [(1:ℝ), 1, 1].length ≠ 1
      ∧ [(0:ℝ), 0].length ≠ 1 ∧ [(5:ℝ), 5, 5].length ≠ [(0:ℝ), 0].length
      ∧ [(5:ℝ), 5, 5].length ≠ 1 ∧ [(0:ℝ), 0].length ≠ [(5:ℝ)].length)
    ∧ sgdUpdate ⟨[], 0, ⟨0.01, 0.9, none⟩, fun _ _ => 0.01⟩ [1, 1, 1] [0, 0] "w" none = none
    ∧ adagradUpdate ⟨[], 0, ⟨0.01, 0.0000001, none⟩, fun _ _ => 0.01⟩ [1, 1, 1] [0, 0] "w" none
      = none
    ∧ rmspropUpdate ⟨[], 0, ⟨0.001, 0.9, 0.0000001, none⟩, fun _ _ => 0.001⟩ [1, 1, 1] [0, 0]
      "w" none = none
    ∧ adamUpdate ⟨[], 0, ⟨0.001, 0.9, 0.999, 0.0000001, none⟩, fun _ _ => 0.001⟩ [1, 1, 1]
      [0, 0] "w" none = none
    ∧ sgdUpdate ⟨[("w", [5, 5, 5])], 0, ⟨0.01, 0.9, none⟩, fun _ _ => 0.01⟩ [1, 1] [0, 0]
      "w" none = none
    ∧ adagradUpdate ⟨[("w", [5])], 0, ⟨0.01, 0.0000001, none⟩, fun _ _ => 0.01⟩ [1, 1] [0, 0]
      "w" none = none
    ∧ rmspropUpdate ⟨[("w", [5, 5, 5])], 0, ⟨0.001, 0.9, 0.0000001, none⟩, fun _ _ => 0.001⟩
      [1, 1] [0, 0] "w" none = none
    ∧ adamUpdate ⟨[("w", ⟨3, [5, 5, 5], [0, 0]⟩)], 0, ⟨0.001, 0.9, 0.999, 0.0000001, none⟩,
      fun _ _ => 0.001⟩ [1, 1] [0, 0] "w" none = none := by
  have h := c2_amended_nonbroadcastable_shape_error
  refine ⟨⟨by simp, by simp, by simp, by simp, by simp, by simp⟩,
    ?_, ?_, ?_, ?_, ?_, ?_, ?_, ?_⟩
  · exact h.1.1 _ [1, 1, 1] [0, 0] "w" none (by simp) (by simp) (by simp)
  · exact h.1.2.1 _ [1, 1, 1] [0, 0] "w" none (by simp) (by simp) (by simp)
  · exact h.1.2.2.1 _ [1, 1, 1] [0, 0] "w" none (by simp) (by simp) (by simp)
  · exact h.1.2.2.2 _ [1, 1, 1] [0, 0] "w" none (by simp) (by simp) (by simp)
  · exact h.2.1 _ [1, 1] [0, 0] "w" none [5, 5, 5] rfl (by simp) (by simp) (by simp)
  · exact h.2.2.1 _ [1, 1] [0, 0] "w" none [5] rfl (by simp) (by simp)
  · exact h.2.2.2.1 _ [1, 1] [0, 0] "w" none [5, 5, 5] rfl (by simp) (by simp) (by simp)
  · exact h.2.2.2.2 _ [1, 1] [0, 0] "w" none ⟨3, [5, 5, 5], [0, 0]⟩ rfl (by simp) (by simp)
      (by simp)

/-! ## Lemmas: Adam's per-name counter (C4) -/

theorem dictGet_append_single_ne {α : Type} (d : List (String × α)) {k m : String} (v : α)
    (h : m ≠ k) : dictGet (d ++ [(k, v)]) m = dictGet d m := by
  cases hd : dictGet d m with
  | none =>
    rw [dictGet_append_of_none _ hd]
    simp [dictGet, Ne.symm h]
  | some w => exact dictGet_append_of_some _ hd

theorem adamCore_t (d1 d2 eps : ℝ) (cn : Option ℝ) (lr : ℝ) (e : AdamEntry)
    (p g : List ℝ) (q : AdamEntry × List ℝ) (h : adamCore d1 d2 eps cn lr e p g = some q) :
    q.1.t = e.t + 1 := by
  simp only [adamCore, Option.bind_eq_some] at h
  obtain ⟨var2, _, mean2, _, upd, _, res, _, hq⟩ := h
  injection hq with hq2
  subst hq2
  rfl

/-- What one `Adam.update` does to the cache: the entry of `param_name`
is replaced by one whose counter is the old counter (0 for a first-seen
name) plus one. -/
theorem adamUpdate_cache {st : AdamState} {p g : List ℝ} {n : String} {l : Option ℝ}
    {r : List ℝ} {st' : AdamState} (h : adamUpdate st p g n l = some (r, st')) :
    ∃ e2 : AdamEntry,
      st'.cache = dictOverwrite
        (if dictContains st.cache n then st.cache
         else st.cache ++ [(n, ⟨0, zerosLike g, zerosLike g⟩)]) n e2
      ∧ e2.t = ((dictGet st.cache n).getD ⟨0, zerosLike g, zerosLike g⟩).t + 1 := by
  simp only [adamUpdate, Option.bind_eq_some] at h
  obtain ⟨ur, hcore, hsome⟩ := h
  injection hsome with h2
  injection h2 with hr hst
  subst hst
  exact ⟨ur.1, rfl, adamCore_t _ _ _ _ _ _ _ _ _ hcore⟩

/-- **C4.** Adam's cached counter `t` for a parameter name equals 1
right after the first `update` call for that name, increases by exactly
1 on each later `update` for that same name, and is untouched by updates
to other names — all regardless of the state's `cur_step` and of the
cache entries of other names (the state `st` is arbitrary). -/
theorem c4_adam_per_name_counter :
    (∀ (st : AdamState) (p g : List ℝ) (n : String) (l : Option ℝ) (r : List ℝ)
      (st' : AdamState), dictGet st.cache n = none → adamUpdate st p g n l = some (r, st') →
      (dictGet st'.cache n).map AdamEntry.t = some 1)
    ∧ (∀ (st : AdamState) (p g : List ℝ) (n : String) (l : Option ℝ) (r : List ℝ)
      (st' : AdamState) (e : AdamEntry), dictGet st.cache n = some e →
      adamUpdate st p g n l = some (r, st') →
      (dictGet st'.cache n).map AdamEntry.t = some (e.t + 1))
    ∧ (∀ (st : AdamState) (p g : List ℝ) (n : String) (l : Option ℝ) (r : List ℝ)
      (st' : AdamState) (m : String), m ≠ n → adamUpdate st p g n l = some (r, st') →
      dictGet st'.cache m = dictGet st.cache m) := by
  refine ⟨?_, ?_, ?_⟩
  · intro st p g n l r st' hfresh h
    obtain ⟨e2, hc, ht⟩ := adamUpdate_cache h
    have hnc : dictContains st.cache n = false := by simp [dictContains, hfresh]
    rw [if_neg (by simp [hnc])] at hc
    have hcontains : dictContains (st.cache ++ [(n, (⟨0, zerosLike g, zerosLike g⟩ : AdamEntry))]) n = true := by
      have : dictGet (st.cache ++ [(n, (⟨0, zerosLike g, zerosLike g⟩ : AdamEntry))]) n
          = some ⟨0, zerosLike g, zerosLike g⟩ := by
        rw [dictGet_append_of_none _ hfresh]
        simp [dictGet]
      simp [dictContains, this]
    rw [hc, dictGet_overwrite_self _ hcontains]
    rw [hfresh] at ht
    simp only [Option.getD_none] at ht
    simp [ht]
  · intro st p g n l r st' e he h
    obtain ⟨e2, hc, ht⟩ := adamUpdate_cache h
    have hnc : dictContains st.cache n = true := by simp [dictContains, he]
    rw [if_pos (by simp [hnc])] at hc
    rw [hc, dictGet_overwrite_self _ hnc]
    rw [he] at ht
    simp only [Option.getD_some] at ht
    simp [ht]
  · intro st p g n l r st' m hm h
    obtain ⟨e2, hc, _⟩ := adamUpdate_cache h
    rw [hc, dictGet_overwrite_ne _ _ hm]
    by_cases hcc : dictContains st.cache n
    · rw [if_pos hcc]
    · rw [if_neg hcc, dictGet_append_single_ne _ _ hm]

/-- Witness for C4: one concrete Adam update on a fresh name `"w"`
sets that name's counter to 1. -/
theorem c4_witness :
    dictGet ([] : List (String × AdamEntry)) "w" = none
    ∧ ∃ (r : List ℝ) (st' : AdamState),
      adamUpdate ⟨[], 0, ⟨0.001, 0.9, 0.999, 0.0000001, none⟩, fun _ _ => 0.001⟩ [1] [0] "w"
        none = some (r, st')
      ∧ (dictGet st'.cache "w").map AdamEntry.t = some 1 := by
  have heval : adamUpdate ⟨[], 0, ⟨0.001, 0.9, 0.999, 0.0000001, none⟩, fun _ _ => 0.001⟩
      [1] [0] "w" none
      = some ([1], ⟨[("w", ⟨1, [0], [0]⟩)], 0, ⟨0.001, 0.9, 0.999, 0.0000001, none⟩,
        fun _ _ => 0.001⟩) := by
    simp [adamUpdate, adamCore, bop, clipGrad, dictGet, dictContains, dictOverwrite, zerosLike]
  exact ⟨rfl, [1], _, heval,
    c4_adam_per_name_counter.1 ⟨[], 0, ⟨0.001, 0.9, 0.999, 0.0000001, none⟩, fun _ _ => 0.001⟩
      [1] [0] "w" none [1] _ rfl heval⟩

/-! ## Lemmas: AdaGrad monotonicity (C5) -/

theorem sq_map_nonneg (l : List ℝ) : ∀ y ∈ l.map (fun x => x ^ 2), 0 ≤ y := by
  intro y hy
  obtain ⟨x, _, rfl⟩ := List.mem_map.mp hy
  positivity

theorem zipWith_add_ge : ∀ (v b : List ℝ), b.length = v.length → (∀ y ∈ b, 0 ≤ y) →
    ∀ i, v.getD i 0 ≤ (List.zipWith (fun x y => x + y) v b).getD i 0 := by
  intro v
  induction v with
  | nil => intro b _ _ i; simp
  | cons x xs ih =>
    intro b hl hb i
    cases b with
    | nil => simp at hl
    | cons y ys =>
      cases i with
      | zero =>
        simp only [List.zipWith_cons_cons, List.getD_cons_zero]
        have := hb y (List.mem_cons_self y ys)
        linarith
      | succ j =>
        simp only [List.zipWith_cons_cons, List.getD_cons_succ]
        exact ih ys (by simpa using hl) (fun u hu => hb u (List.mem_cons_of_mem y hu)) j

theorem map_add_ge (c : ℝ) (hc : 0 ≤ c) :
    ∀ (v : List ℝ) (i : ℕ), v.getD i 0 ≤ (v.map (fun x => x + c)).getD i 0 := by
  intro v
  induction v with
  | nil => intro i; simp
  | cons x xs ih =>
    intro i
    cases i with
    | zero =>
      simp only [List.map_cons, List.getD_cons_zero]
      linarith
    | succ j =>
      simp only [List.map_cons, List.getD_cons_succ]
      exact ih j

/-- The in-place `C[param_name] += grad ** 2` keeps the cached tensor's
shape and never decreases any element when the added terms are
nonnegative. -/
theorem ibop_add_mono {v b v2 : List ℝ} (h : ibop (fun x y => x + y) v b = some v2)
    (hb : ∀ y ∈ b, 0 ≤ y) : v2.length = v.length ∧ ∀ i, v.getD i 0 ≤ v2.getD i 0 := by
  unfold ibop at h
  split_ifs at h with h1 h2
  · injection h with h3
    subst h3
    exact ⟨by rw [List.length_zipWith, h1, min_self], zipWith_add_ge v b h1 hb⟩
  · injection h with h3
    subst h3
    refine ⟨by simp, ?_⟩
    cases b with
    | nil => simp at h2
    | cons y ys => exact map_add_ge _ (hb y (List.mem_cons_self y ys)) v

theorem adagradCore_eq_some {eps : ℝ} {cn : Option ℝ} {lr : ℝ} {v p g : List ℝ}
    {q : List ℝ × List ℝ} (h : adagradCore eps cn lr v p g = some q) :
    ibop (fun x y => x + y) v ((clipGrad cn g).map (fun x => x ^ 2)) = some q.1 := by
  simp only [adagradCore, Option.bind_eq_some] at h
  obtain ⟨sumSq, hs, upd, _, res, _, hq⟩ := h
  injection hq with hq2
  subst hq2
  exact hs

theorem adagradUpdate_cache {st : AdaGradState} {p g : List ℝ} {n : String} {l : Option ℝ}
    {q : List ℝ × AdaGradState} (h : adagradUpdate st p g n l = some q) :
    ∃ w : List ℝ × List ℝ,
      adagradCore st.hyper.eps st.hyper.clip_norm (st.lr_scheduler st.cur_step l)
        ((dictGet st.cache n).getD (zerosLike g)) p g = some w
      ∧ q.2.cache = dictOverwrite
        (if dictContains st.cache n then st.cache else st.cache ++ [(n, zerosLike g)]) n w.1 := by
  simp only [adagradUpdate, Option.bind_eq_some] at h
  obtain ⟨ur, hcore, hsome⟩ := h
  injection hsome with h2
  subst h2
  exact ⟨ur, hcore, rfl⟩

theorem adagradUpdate_mono {st : AdaGradState} {p g : List ℝ} {n : String} {l : Option ℝ}
    {q : List ℝ × AdaGradState} (h : adagradUpdate st p g n l = some q)
    (m : String) (v : List ℝ) (hv : dictGet st.cache m = some v) :
    ∃ v2, dictGet q.2.cache m = some v2 ∧ v2.length = v.length
      ∧ ∀ i, v.getD i 0 ≤ v2.getD i 0 := by
  obtain ⟨w, hcore, hc⟩ := adagradUpdate_cache h
  by_cases hm : m = n
  · subst hm
    have hcont : dictContains st.cache m = true := by simp [dictContains, hv]
    rw [if_pos hcont] at hc
    rw [hv] at hcore
    simp only [Option.getD_some] at hcore
    obtain ⟨hlen, hmono⟩ := ibop_add_mono (adagradCore_eq_some hcore) (sq_map_nonneg _)
    refine ⟨w.1, ?_, hlen, hmono⟩
    rw [hc, dictGet_overwrite_self _ hcont]
  · refine ⟨v, ?_, rfl, fun i => le_refl _⟩
    rw [hc, dictGet_overwrite_ne _ _ hm]
    by_cases hcc : dictContains st.cache n
    · rw [if_pos hcc]
      exact hv
    · rw [if_neg hcc, dictGet_append_single_ne _ _ hm]
      exact hv

/-- **C5.** The cached cumulative squared-gradient tensor of AdaGrad is
elementwise monotonically non-decreasing across every (successful)
sequence of `update` calls, whatever the parameter names, gradients and
hyperparameters of the calls: if a name holds cached value `v` at some
point, then after any further run it holds a value that is everywhere at
least `v` (and of the same shape). -/
theorem c5_adagrad_sum_sq_monotone :
    ∀ (calls : List UpdCall) (st st' : AdaGradState) (n : String) (v : List ℝ),
      adagradRun st calls = some st' → dictGet st.cache n = some v →
      ∃ v2, dictGet st'.cache n = some v2 ∧ v2.length = v.length
        ∧ ∀ i, v.getD i 0 ≤ v2.getD i 0 := by
  intro calls
  induction calls with
  | nil =>
    intro st st' n v hrun hv
    simp only [adagradRun] at hrun
    injection hrun with h2
    subst h2
    exact ⟨v, hv, rfl, fun i => le_refl _⟩
  | cons c cs ih =>
    intro st st' n v hrun hv
    simp only [adagradRun, Option.bind_eq_some] at hrun
    obtain ⟨r, hstep, hrest⟩ := hrun
    obtain ⟨v1, hv1, hl1, hm1⟩ := adagradUpdate_mono hstep n v hv
    obtain ⟨v2, hv2, hl2, hm2⟩ := ih r.2 st' n v1 hrest hv1
    exact ⟨v2, hv2, by rw [hl2, hl1], fun i => le_trans (hm1 i) (hm2 i)⟩

/-- Witness for C5: one AdaGrad update on name `"w"` holding `[1]` with
gradient `[0]` leaves the cached sum at `[1] ≥ [1]`. -/
theorem c5_witness :
    adagradRun ⟨[("w", [1])], 0, ⟨2, 1, none⟩, fun _ _ => 2⟩
      [⟨[5], [0], "w", none⟩] = some ⟨[("w", [1])], 0, ⟨2, 1, none⟩, fun _ _ => 2⟩
    ∧ dictGet [("w", [(1:ℝ)])] "w" = some [1]
    ∧ ∃ v2, dictGet [("w", [(1:ℝ)])] "w" = some v2 ∧ v2.length = [(1:ℝ)].length
      ∧ ∀ i, [(1:ℝ)].getD i 0 ≤ v2.getD i 0 := by
  have hget : dictGet [("w", [(1:ℝ)])] "w" = some [1] := by simp [dictGet]
  have heval : adagradRun ⟨[("w", [1])], 0, ⟨2, 1, none⟩, fun _ _ => 2⟩
      [⟨[5], [0], "w", none⟩] = some ⟨[("w", [1])], 0, ⟨2, 1, none⟩, fun _ _ => 2⟩ := by
    simp [adagradRun, adagradUpdate, adagradCore, ibop, bop, clipGrad, dictGet, dictContains,
      dictOverwrite, zerosLike]
  exact ⟨heval, hget,
    c5_adagrad_sum_sq_monotone [⟨[5], [0], "w", none⟩] _ _ "w" [1] heval hget⟩

/-! ## Lemmas: RMSProp boundedness (C6) -/

theorem getD_of_length_le {l : List ℝ} {i : ℕ} (h : l.length ≤ i) : l.getD i 0 = 0 := by
  simp [List.getD_eq_getElem?_getD, List.getElem?_eq_none h]

theorem getD_map_lt {f : ℝ → ℝ} : ∀ {l : List ℝ} {i : ℕ}, i < l.length →
    (l.map f).getD i 0 = f (l.getD i 0) := by
  intro l
  induction l with
  | nil => intro i hi; simp at hi
  | cons x xs ih =>
    intro i hi
    cases i with
    | zero => rfl
    | succ j =>
      simp only [List.map_cons, List.getD_cons_succ]
      exact ih (by simpa using hi)

theorem getD_zipWith_lt {f : ℝ → ℝ → ℝ} : ∀ {a b : List ℝ} {i : ℕ}, i < a.length →
    i < b.length → (List.zipWith f a b).getD i 0 = f (a.getD i 0) (b.getD i 0) := by
  intro a
  induction a with
  | nil => intro b i hi _; simp at hi
  | cons x xs ih =>
    intro b i hia hib
    cases b with
    | nil => simp at hib
    | cons y ys =>
      cases i with
      | zero => rfl
      | succ j =>
        simp only [List.zipWith_cons_cons, List.getD_cons_succ]
        exact ih (by simpa using hia) (by simpa using hib)

theorem getD_allZero : ∀ {l : List ℝ}, (∀ x ∈ l, x = 0) → ∀ i, l.getD i 0 = 0 := by
  intro l
  induction l with
  | nil => intro _ i; simp
  | cons x xs ih =>
    intro h i
    cases i with
    | zero =>
      simp only [List.getD_cons_zero]
      exact h x (List.mem_cons_self x xs)
    | succ j =>
      simp only [List.getD_cons_succ]
      exact ih (fun u hu => h u (List.mem_cons_of_mem x hu)) j

theorem maxSqAt_nil (i : ℕ) : maxSqAt [] i = 0 := rfl

theorem maxSqAt_cons (g : List ℝ) (gs : List (List ℝ)) (i : ℕ) :
    maxSqAt (g :: gs) i = max ((g.getD i 0) ^ 2) (maxSqAt gs i) := rfl

theorem maxSqAt_nonneg (gs : List (List ℝ)) (i : ℕ) : 0 ≤ maxSqAt gs i := by
  induction gs with
  | nil => exact le_refl 0
  | cons g gs ih => exact le_trans ih (le_max_right _ _)

theorem gradsFor_cons (n : String) (c : UpdCall) (cs : List UpdCall) :
    gradsFor n (c :: cs)
      = if c.name = n then c.grad :: gradsFor n cs else gradsFor n cs := by
  by_cases h : c.name = n
  · simp [gradsFor, List.filter_cons, h]
  · simp [gradsFor, List.filter_cons, h]

/-- Clipping never increases the square of any entry (the clip scale is
in `[0, 1)` whenever it applies and `clip_norm` is nonnegative). -/
theorem clipGrad_sq_le {cn : Option ℝ} (hcn : ∀ c, cn = some c → 0 ≤ c) (g : List ℝ) (i : ℕ) :
    ((clipGrad cn g).getD i 0) ^ 2 ≤ (g.getD i 0) ^ 2 := by
  cases cn with
  | none => exact le_refl _
  | some c =>
    simp only [clipGrad]
    split_ifs with hgt
    · by_cases hi : i < g.length
      · rw [getD_map_lt hi]
        have hc := hcn c rfl
        have hnrm : 0 < l2norm g := lt_of_le_of_lt hc hgt
        rw [mul_div_assoc, mul_pow]
        have h01 : 0 ≤ c / l2norm g := div_nonneg hc hnrm.le
        have hlt : c / l2norm g < 1 := (div_lt_one hnrm).mpr hgt
        have hs1 : (c / l2norm g) ^ 2 ≤ 1 := by nlinarith
        calc g.getD i 0 ^ 2 * (c / l2norm g) ^ 2
            ≤ g.getD i 0 ^ 2 * 1 := mul_le_mul_of_nonneg_left hs1 (sq_nonneg _)
          _ = g.getD i 0 ^ 2 := mul_one _
      · push_neg at hi
        rw [getD_of_length_le (by simpa using hi), getD_of_length_le hi]
    · exact le_refl _

/-- One numeric step of the exponential average: a convex combination of
two values of `[0, M]` stays in `[0, M]`. -/
theorem convex_step_bound {d x y M : ℝ} (hd0 : 0 ≤ d) (hd1 : d ≤ 1) (hx0 : 0 ≤ x)
    (hxM : x ≤ M) (hy0 : 0 ≤ y) (hyM : y ≤ M) :
    0 ≤ d * x + (1 - d) * y ∧ d * x + (1 - d) * y ≤ M := by
  constructor <;> nlinarith

theorem rmspropCore_eq_some {decay eps : ℝ} {cn : Option ℝ} {lr : ℝ} {v p g : List ℝ}
    {q : List ℝ × List ℝ} (h : rmspropCore decay eps cn lr v p g = some q) :
    bop (fun x y => decay * x + (1 - decay) * y) v ((clipGrad cn g).map (fun x => x ^ 2))
      = some q.1 := by
  simp only [rmspropCore, Option.bind_eq_some] at h
  obtain ⟨avgSq, hs, upd, _, res, _, hq⟩ := h
  injection hq with hq2
  subst hq2
  exact hs

theorem rmspropUpdate_cache {st : RMSPropState} {p g : List ℝ} {n : String} {l : Option ℝ}
    {q : List ℝ × RMSPropState} (h : rmspropUpdate st p g n l = some q) :
    ∃ w : List ℝ × List ℝ,
      rmspropCore st.hyper.decay st.hyper.eps st.hyper.clip_norm
        (st.lr_scheduler st.cur_step l)
        ((dictGet st.cache n).getD (zerosLike g)) p g = some w
      ∧ q.2.cache = dictOverwrite
        (if dictContains st.cache n then st.cache else st.cache ++ [(n, zerosLike g)]) n w.1
      ∧ q.2.hyper = st.hyper := by
  simp only [rmspropUpdate, Option.bind_eq_some] at h
  obtain ⟨ur, hcore, hsome⟩ := h
  injection hsome with h2
  subst h2
  exact ⟨ur, hcore, rfl, rfl⟩

/-- An `RMSProp.update` on another name leaves `n`'s cache entry as it
was. -/
theorem rmspropUpdate_cache_other {st : RMSPropState} {p g : List ℝ} {n0 : String}
    {l : Option ℝ} {q : List ℝ × RMSPropState} (h : rmspropUpdate st p g n0 l = some q)
    (m : String) (hm : m ≠ n0) : dictGet q.2.cache m = dictGet st.cache m := by
  obtain ⟨w, _, hc, _⟩ := rmspropUpdate_cache h
  rw [hc, dictGet_overwrite_ne _ _ hm]
  by_cases hcc : dictContains st.cache n0
  · rw [if_pos hcc]
  · rw [if_neg hcc, dictGet_append_single_ne _ _ hm]

/-- An `RMSProp.update` on name `n` itself: if the old entry (or the
zero initialisation) is within `[0, B]`, the new entry has length `k`
and is within `[0, max B grad²]` elementwise. -/
theorem rmspropUpdate_cache_self {st : RMSPropState} {p g : List ℝ} {n : String}
    {l : Option ℝ} {q : List ℝ × RMSPropState} (h : rmspropUpdate st p g n l = some q)
    {k : ℕ} {B : ℕ → ℝ} (hd0 : 0 ≤ st.hyper.decay) (hd1 : st.hyper.decay ≤ 1)
    (hcn : ∀ c, st.hyper.clip_norm = some c → 0 ≤ c) (hgl : g.length = k)
    (hinv : rmsInv st.cache n k B) :
    rmsInv q.2.cache n k (fun i => max (B i) ((g.getD i 0) ^ 2)) := by
  obtain ⟨w, hcore, hc, _⟩ := rmspropUpdate_cache h
  have hbop := rmspropCore_eq_some hcore
  set v := (dictGet st.cache n).getD (zerosLike g) with hvdef
  have hgsql : ((clipGrad st.hyper.clip_norm g).map (fun x => x ^ 2)).length = k := by
    simp [clipGrad_length, hgl]
  have hvstat : v.length = k ∧ ∀ i, i < k →
      0 ≤ v.getD i 0 ∧ v.getD i 0 ≤ max (B i) ((g.getD i 0) ^ 2) := by
    cases hv : dictGet st.cache n with
    | none =>
      rw [hvdef, hv, Option.getD_none]
      refine ⟨by simp [zerosLike, hgl], fun i hi => ?_⟩
      rw [getD_allZero (allZero_zerosLike g) i]
      exact ⟨le_refl 0, le_trans (sq_nonneg _) (le_max_right _ _)⟩
    | some e =>
      obtain ⟨hel, hebd⟩ := hinv e hv
      rw [hvdef, hv, Option.getD_some]
      exact ⟨hel, fun i hi => ⟨(hebd i hi).1,
        le_trans (hebd i hi).2 (le_max_left _ _)⟩⟩
  have hvl : v.length = ((clipGrad st.hyper.clip_norm g).map (fun x => x ^ 2)).length := by
    rw [hvstat.1, hgsql]
  rw [bop_of_eq_length hvl] at hbop
  injection hbop with hw1
  have hcont : dictContains
      (if dictContains st.cache n then st.cache else st.cache ++ [(n, zerosLike g)]) n
      = true := by
    by_cases hcc : dictContains st.cache n
    · rw [if_pos hcc]
      exact hcc
    · rw [if_neg hcc]
      have : dictGet (st.cache ++ [(n, zerosLike g)]) n = some (zerosLike g) := by
        rw [dictGet_append_of_none _ (by
          rw [← dictContains_eq_false_iff]
          simpa using hcc)]
        simp [dictGet]
      simp [dictContains, this]
  intro e he
  rw [hc, dictGet_overwrite_self _ hcont] at he
  injection he with he2
  subst he2
  rw [← hw1]
  constructor
  · rw [zipWith_length_of_eq hvl, hvstat.1]
  · intro i hi
    rw [getD_zipWith_lt (by rw [hvstat.1]; exact hi) (by rw [hgsql]; exact hi),
      getD_map_lt (by rw [clipGrad_length]; rw [hgl]; exact hi)]
    exact convex_step_bound hd0 hd1 (hvstat.2 i hi).1 (hvstat.2 i hi).2
      (sq_nonneg _) (le_trans (clipGrad_sq_le hcn g i) (le_max_right _ _))

/-- The invariant carried over a whole run: the bound grows by the
elementwise maximum of the squared gradients supplied for `n`. -/
theorem rmspropRun_inv : ∀ (calls : List UpdCall) (st st' : RMSPropState) (n : String)
    (k : ℕ) (B : ℕ → ℝ), 0 ≤ st.hyper.decay → st.hyper.decay ≤ 1 →
    (∀ c, st.hyper.clip_norm = some c → 0 ≤ c) →
    (∀ c ∈ calls, c.name = n → c.grad.length = k) →
    rmsInv st.cache n k B → rmspropRun st calls = some st' →
    rmsInv st'.cache n k (fun i => max (B i) (maxSqAt (gradsFor n calls) i)) := by
  intro calls
  induction calls with
  | nil =>
    intro st st' n k B _ _ _ _ hinv hrun
    simp only [rmspropRun] at hrun
    injection hrun with h2
    subst h2
    intro e he
    obtain ⟨hl, hb⟩ := hinv e he
    exact ⟨hl, fun i hi => ⟨(hb i hi).1, le_trans (hb i hi).2 (le_max_left _ _)⟩⟩
  | cons c cs ih =>
    intro st st' n k B hd0 hd1 hcn hcalls hinv hrun
    simp only [rmspropRun, Option.bind_eq_some] at hrun
    obtain ⟨r, hstep, hrest⟩ := hrun
    have hhyp : r.2.hyper = st.hyper := (rmspropUpdate_cache hstep).choose_spec.2.2
    by_cases hname : c.name = n
    · subst hname
      have hinv1 : rmsInv r.2.cache c.name k (fun i => max (B i) ((c.grad.getD i 0) ^ 2)) :=
        rmspropUpdate_cache_self hstep hd0 hd1 hcn
          (hcalls c (List.mem_cons_self c cs) rfl) hinv
      have hres := ih r.2 st' c.name k _ (by rw [hhyp]; exact hd0) (by rw [hhyp]; exact hd1)
        (by rw [hhyp]; exact hcn) (fun c2 hc2 => hcalls c2 (List.mem_cons_of_mem c hc2))
        hinv1 hrest
      intro e he
      obtain ⟨hl, hb⟩ := hres e he
      refine ⟨hl, fun i hi => ⟨(hb i hi).1, ?_⟩⟩
      have key : max (max (B i) ((c.grad.getD i 0) ^ 2)) (maxSqAt (gradsFor c.name cs) i)
          = max (B i) (maxSqAt (gradsFor c.name (c :: cs)) i) := by
        rw [gradsFor_cons, if_pos rfl, maxSqAt_cons, max_assoc]
      exact le_of_le_of_eq (hb i hi).2 key
    · have hframe := rmspropUpdate_cache_other hstep n (fun hh => hname hh.symm)
      have hinv1 : rmsInv r.2.cache n k B := by
        intro e he
        rw [hframe] at he
        exact hinv e he
      have hres := ih r.2 st' n k B (by rw [hhyp]; exact hd0) (by rw [hhyp]; exact hd1)
        (by rw [hhyp]; exact hcn) (fun c2 hc2 => hcalls c2 (List.mem_cons_of_mem c hc2))
        hinv1 hrest
      intro e he
      obtain ⟨hl, hb⟩ := hres e he
      refine ⟨hl, fun i hi => ⟨(hb i hi).1, ?_⟩⟩
      have key : max (B i) (maxSqAt (gradsFor n cs) i)
          = max (B i) (maxSqAt (gradsFor n (c :: cs)) i) := by
        rw [gradsFor_cons, if_neg hname]
      exact le_of_le_of_eq (hb i hi).2 key

/-- **C6.** For RMSProp with `decay ∈ [0, 1]` (and a nonnegative
`clip_norm` when set), after any successful sequence of `update` calls
starting from a state where name `n` is fresh, every element of `n`'s
cached squared-gradient average is at least 0 and at most the
elementwise maximum of the squared gradients supplied for that name. -/
theorem c6_rmsprop_avg_sq_bounded :
    ∀ (calls : List UpdCall) (st st' : RMSPropState) (n : String) (k : ℕ) (e : List ℝ),
      0 ≤ st.hyper.decay → st.hyper.decay ≤ 1 →
      (∀ c, st.hyper.clip_norm = some c → 0 ≤ c) →
      dictGet st.cache n = none →
      (∀ c ∈ calls, c.name = n → c.grad.length = k) →
      rmspropRun st calls = some st' → dictGet st'.cache n = some e →
      e.length = k ∧ ∀ i, i < k →
        0 ≤ e.getD i 0 ∧ e.getD i 0 ≤ maxSqAt (gradsFor n calls) i := by
  intro calls st st' n k e hd0 hd1 hcn hfresh hcalls hrun he
  have hinv0 : rmsInv st.cache n k (fun _ => 0) := by
    intro e2 he2
    rw [hfresh] at he2
    simp at he2
  have hres := rmspropRun_inv calls st st' n k (fun _ => 0) hd0 hd1 hcn hcalls hinv0 hrun
  obtain ⟨hl, hb⟩ := hres e he
  refine ⟨hl, fun i hi => ⟨(hb i hi).1, ?_⟩⟩
  exact le_of_le_of_eq (hb i hi).2 (max_eq_right (maxSqAt_nonneg _ _))

/-- Witness for C6: one RMSProp update (`decay = 1/2`) on the fresh name
`"w"` with gradient `[0]` leaves a cached average `[0]`, within
`[0, max squared gradient]`. -/
theorem c6_witness :
    (0:ℝ) ≤ (1/2 : ℝ) ∧ (1/2 : ℝ) ≤ 1
    ∧ rmspropRun ⟨[], 0, ⟨1, 1/2, 1, none⟩, fun _ _ => 1⟩ [⟨[1], [0], "w", none⟩]
      = some ⟨[("w", [0])], 0, ⟨1, 1/2, 1, none⟩, fun _ _ => 1⟩
    ∧ dictGet [("w", [(0:ℝ)])] "w" = some [0]
    ∧ ([(0:ℝ)].length = 1 ∧ ∀ i, i < 1 → 0 ≤ [(0:ℝ)].getD i 0
        ∧ [(0:ℝ)].getD i 0 ≤ maxSqAt (gradsFor "w" [⟨[1], [0], "w", none⟩]) i) := by
  have heval : rmspropRun ⟨[], 0, ⟨1, 1/2, 1, none⟩, fun _ _ => 1⟩ [⟨[1], [0], "w", none⟩]
      = some ⟨[("w", [0])], 0, ⟨1, 1/2, 1, none⟩, fun _ _ => 1⟩ := by
    simp [rmspropRun, rmspropUpdate, rmspropCore, bop, clipGrad, dictGet, dictContains,
      dictOverwrite, zerosLike]
  have hget : dictGet [("w", [(0:ℝ)])] "w" = some [0] := by simp [dictGet]
  refine ⟨by norm_num, by norm_num, heval, hget, ?_⟩
  exact c6_rmsprop_avg_sq_bounded [⟨[1], [0], "w", none⟩]
    ⟨[], 0, ⟨1, 1/2, 1, none⟩, fun _ _ => 1⟩
    ⟨[("w", [0])], 0, ⟨1, 1/2, 1, none⟩, fun _ _ => 1⟩ "w" 1 [0]
    (by norm_num) (by norm_num) (by intro c hc; simp at hc) rfl
    (by intro c hc _; simp at hc; subst hc; rfl) heval hget

/-! ## Lemmas: heap frame reasoning (C8) -/

theorem framed_trans {h1 h2 h3 : Heap} {i : ℕ} {R : List ℕ} (a : framed h1 h2 i R)
    (b : framed h2 h3 i R) : framed h1 h3 i R :=
  ⟨by rw [b.1, a.1], fun r hr => by rw [b.2.1 r hr, a.2.1 r hr], le_trans a.2.2 b.2.2⟩

theorem framed_refl (h : Heap) (i : ℕ) (R : List ℕ) : framed h h i R :=
  ⟨rfl, fun _ _ => rfl, le_refl _⟩

theorem framed_writeObj {h : Heap} {i j : ℕ} {R : List ℕ} (o : HObj) (hij : i ≠ j) :
    framed h (writeObj h j o) i R :=
  ⟨List.get?_set_ne o h.objs (Ne.symm hij), fun _ _ => rfl, le_refl _⟩

theorem framed_allocCells {h : Heap} {i : ℕ} {R : List ℕ} (cs : List ECell)
    (hR : refsBelow R h.cells.length) : framed h (allocCells h cs) i R :=
  ⟨rfl, fun r hr => List.get?_append (hR r hr), by simp [allocCells]⟩

theorem framed_writeCell {h : Heap} {i : ℕ} {R : List ℕ} {r : ℕ} (c : ECell) (hr : r ∉ R) :
    framed h (writeCell h r c) i R :=
  ⟨rfl, fun r2 hr2 => List.get?_set_ne c h.cells (fun he => hr (he ▸ hr2)),
    by simp [writeCell]⟩

theorem refsBelow_mono {R : List ℕ} {m m2 : ℕ} (h : refsBelow R m) (hm : m ≤ m2) :
    refsBelow R m2 :=
  fun r hr => lt_of_lt_of_le (h r hr) hm

theorem dictGet_mem_snd {α : Type} : ∀ {d : List (String × α)} {k : String} {v : α},
    dictGet d k = some v → v ∈ d.map Prod.snd := by
  intro d
  induction d with
  | nil => intro k v h; simp [dictGet] at h
  | cons p ps ih =>
    intro k v h
    by_cases hp : p.1 = k
    · simp only [dictGet, if_pos hp] at h
      injection h with h2
      simp [h2.symm]
    · simp only [dictGet, if_neg hp] at h
      simp [ih h]

theorem dictOverwrite_snd_subset {α : Type} : ∀ (d : List (String × α)) (k : String) (v : α)
    (r : α), r ∈ (dictOverwrite d k v).map Prod.snd → r ∈ d.map Prod.snd ∨ r = v := by
  intro d
  induction d with
  | nil => intro k v r h; simp [dictOverwrite] at h
  | cons p ps ih =>
    intro k v r h
    by_cases hp : p.1 = k
    · simp only [dictOverwrite, if_pos hp, List.map_cons, List.mem_cons] at h
      rcases h with h | h
      · exact Or.inr h
      · rcases ih k v r h with h2 | h2
        · exact Or.inl (by simp [h2])
        · exact Or.inr h2
    · simp only [dictOverwrite, if_neg hp, List.map_cons, List.mem_cons] at h
      rcases h with h | h
      · exact Or.inl (by simp [h])
      · rcases ih k v r h with h2 | h2
        · exact Or.inl (by simp [h2])
        · exact Or.inr h2

theorem reachRefs_of_get {h : Heap} {j : ℕ} {o : HObj} (hobj : h.objs.get? j = some o) :
    reachRefs h j = o.cacheKeys.map Prod.snd := by
  unfold reachRefs
  rw [hobj]

theorem get?_lt_of_some {α : Type} {l : List α} {n : ℕ} {a : α} (h : l.get? n = some a) :
    n < l.length :=
  (List.get?_eq_some.mp h).choose

theorem writeObj_get_self (h : Heap) {j : ℕ} (o o2 : HObj) (hobj : h.objs.get? j = some o) :
    (writeObj h j o2).objs.get? j = some o2 := by
  simp only [writeObj]
  exact List.get?_set_eq_of_lt o2 (get?_lt_of_some hobj)

theorem framed_of_append {h h2 : Heap} {i : ℕ} {R : List ℕ}
    (hc : ∃ ext, h2.cells = h.cells ++ ext) (ho : h2.objs = h.objs)
    (hR : refsBelow R h.cells.length) : framed h h2 i R := by
  obtain ⟨ext, hcc⟩ := hc
  exact ⟨by rw [ho], fun r hr => by rw [hcc]; exact List.get?_append (hR r hr),
    by rw [hcc]; simp⟩

theorem get_obj_of_eq {h h2 : Heap} {j : ℕ} {o : HObj} (ho : h2.objs = h.objs)
    (hobj : h.objs.get? j = some o) : h2.objs.get? j = some o := by
  rw [ho]
  exact hobj

/-- What `ensureCell` guarantees: the object store is unchanged, cells
only grow, the returned reference is an old reachable one or the fresh
one, and the returned object's references are old ones or fresh. -/
theorem ensureCell_spec (h : Heap) (o : HObj) (n : String) (init : ECell) :
    ((ensureCell h o n init).1.objs = h.objs)
    ∧ (∃ ext, (ensureCell h o n init).1.cells = h.cells ++ ext)
    ∧ ((ensureCell h o n init).2.2 ∈ o.cacheKeys.map Prod.snd
        ∨ (ensureCell h o n init).2.2 = h.cells.length)
    ∧ (∀ r ∈ (ensureCell h o n init).2.1.cacheKeys.map Prod.snd,
        r ∈ o.cacheKeys.map Prod.snd ∨ h.cells.length ≤ r)
    ∧ h.cells.length ≤ (ensureCell h o n init).1.cells.length := by
  unfold ensureCell
  cases hkey : dictGet o.cacheKeys n with
  | some r =>
    exact ⟨rfl, ⟨[], by simp⟩, Or.inl (dictGet_mem_snd hkey),
      fun r2 hr2 => Or.inl hr2, le_refl _⟩
  | none =>
    refine ⟨rfl, ⟨[init], rfl⟩, Or.inr rfl, ?_, by simp [allocCells]⟩
    intro r2 hr2
    rw [List.map_append] at hr2
    rcases List.mem_append.mp hr2 with h3 | h3
    · exact Or.inl h3
    · simp at h3
      exact Or.inr (le_of_eq h3.symm)

/-- `SGD`/`RMSProp` heap updates only allocate fresh cells and write the
acting object: everything the original can reach is untouched, and the
acting object's reachable references stay within its old ones plus fresh
ones. -/
theorem heapRebindUpdate_frame {h : Heap} {j : ℕ} {o : HObj}
    {core : List ℝ → Option (List ℝ × List ℝ)} {g : List ℝ} {n : String} {h2 : Heap}
    {i : ℕ} {R : List ℕ} (hobj : h.objs.get? j = some o) (hij : i ≠ j)
    (hR : refsBelow R h.cells.length)
    (hop : heapRebindUpdate h j o core g n = some h2) :
    framed h h2 i R
    ∧ ∀ r ∈ reachRefs h2 j, r ∈ o.cacheKeys.map Prod.snd ∨ h.cells.length ≤ r := by
  simp only [heapRebindUpdate, Option.bind_eq_some] at hop
  obtain ⟨v, hv, vr, hcore, hh⟩ := hop
  injection hh with hh2
  subst hh2
  have spec := ensureCell_spec h o n (ECell.arr (zerosLike g))
  constructor
  · refine framed_trans (framed_of_append spec.2.1 spec.1 hR)
      (framed_trans (framed_allocCells _ (refsBelow_mono hR spec.2.2.2.2))
        (framed_writeObj _ hij))
  · intro r hr
    rw [reachRefs_of_get (writeObj_get_self
      (allocCells (ensureCell h o n (ECell.arr (zerosLike g))).1 [ECell.arr vr.1]) o _
      (get_obj_of_eq spec.1 hobj))] at hr
    rcases dictOverwrite_snd_subset _ _ _ _ hr with h1 | h1
    · exact spec.2.2.2.1 r h1
    · exact Or.inr (le_trans spec.2.2.2.2 (le_of_eq h1.symm))

/-- `AdaGrad` heap updates write only the acting object's own cell (the
in-place `+=`) or a fresh one. -/
theorem heapInPlaceUpdate_frame {h : Heap} {j : ℕ} {o : HObj}
    {core : List ℝ → Option (List ℝ × List ℝ)} {g : List ℝ} {n : String} {h2 : Heap}
    {i : ℕ} {R : List ℕ} (hobj : h.objs.get? j = some o) (hij : i ≠ j)
    (hdisj : ∀ r ∈ o.cacheKeys.map Prod.snd, r ∉ R) (hR : refsBelow R h.cells.length)
    (hop : heapInPlaceUpdate h j o core g n = some h2) :
    framed h h2 i R
    ∧ ∀ r ∈ reachRefs h2 j, r ∈ o.cacheKeys.map Prod.snd ∨ h.cells.length ≤ r := by
  simp only [heapInPlaceUpdate, Option.bind_eq_some] at hop
  obtain ⟨v, hv, vr, hcore, hh⟩ := hop
  injection hh with hh2
  subst hh2
  have spec := ensureCell_spec h o n (ECell.arr (zerosLike g))
  have hnotR : (ensureCell h o n (ECell.arr (zerosLike g))).2.2 ∉ R := by
    rcases spec.2.2.1 with h1 | h1
    · exact hdisj _ h1
    · intro hmem
      rw [h1] at hmem
      exact absurd (hR _ hmem) (lt_irrefl _)
  constructor
  · exact framed_trans (framed_of_append spec.2.1 spec.1 hR)
      (framed_trans (framed_writeCell _ hnotR) (framed_writeObj _ hij))
  · intro r hr
    rw [reachRefs_of_get (writeObj_get_self
      (writeCell (ensureCell h o n (ECell.arr (zerosLike g))).1
        (ensureCell h o n (ECell.arr (zerosLike g))).2.2 (ECell.arr vr.1)) o _
      (get_obj_of_eq spec.1 hobj))] at hr
    exact spec.2.2.2.1 r hr

/-- `Adam` heap updates write only the acting object's own per-name dict
cell or a fresh one. -/
theorem heapAdamUpdate_frame {h : Heap} {j : ℕ} {o : HObj}
    {core : AdamEntry → Option (AdamEntry × List ℝ)} {g : List ℝ} {n : String} {h2 : Heap}
    {i : ℕ} {R : List ℕ} (hobj : h.objs.get? j = some o) (hij : i ≠ j)
    (hdisj : ∀ r ∈ o.cacheKeys.map Prod.snd, r ∉ R) (hR : refsBelow R h.cells.length)
    (hop : heapAdamUpdate h j o core g n = some h2) :
    framed h h2 i R
    ∧ ∀ r ∈ reachRefs h2 j, r ∈ o.cacheKeys.map Prod.snd ∨ h.cells.length ≤ r := by
  simp only [heapAdamUpdate, Option.bind_eq_some] at hop
  obtain ⟨ent, hv, er, hcore, hh⟩ := hop
  injection hh with hh2
  subst hh2
  have spec := ensureCell_spec h o n (ECell.adamE 0 (zerosLike g) (zerosLike g))
  have hnotR : (ensureCell h o n (ECell.adamE 0 (zerosLike g) (zerosLike g))).2.2 ∉ R := by
    rcases spec.2.2.1 with h1 | h1
    · exact hdisj _ h1
    · intro hmem
      rw [h1] at hmem
      exact absurd (hR _ hmem) (lt_irrefl _)
  constructor
  · exact framed_trans (framed_of_append spec.2.1 spec.1 hR)
      (framed_trans (framed_writeCell _ hnotR) (framed_writeObj _ hij))
  · intro r hr
    rw [reachRefs_of_get (writeObj_get_self
      (writeCell (ensureCell h o n (ECell.adamE 0 (zerosLike g) (zerosLike g))).1
        (ensureCell h o n (ECell.adamE 0 (zerosLike g) (zerosLike g))).2.2
        (ECell.adamE er.1.t er.1.mean er.1.var)) o _
      (get_obj_of_eq spec.1 hobj))] at hr
    exact spec.2.2.2.1 r hr

theorem applyCachePatch_cons (h : Heap) (keys : List (String × ℕ)) (kv : String × ECell)
    (rest : List (String × ECell)) :
    applyCachePatch h keys (kv :: rest)
      = if dictContains keys kv.1
        then applyCachePatch (allocCells h [kv.2]) (dictOverwrite keys kv.1 h.cells.length) rest
        else applyCachePatch h keys rest := rfl

/-- The cache part of `set_params` only allocates fresh cells and
rebinds keys of the acting object's cache dict. -/
theorem applyCachePatch_spec : ∀ (cd : List (String × ECell)) (h : Heap)
    (keys : List (String × ℕ)),
    (∃ ext, (applyCachePatch h keys cd).1.cells = h.cells ++ ext)
    ∧ (applyCachePatch h keys cd).1.objs = h.objs
    ∧ ∀ r ∈ (applyCachePatch h keys cd).2.map Prod.snd,
        r ∈ keys.map Prod.snd ∨ h.cells.length ≤ r := by
  intro cd
  induction cd with
  | nil =>
    intro h keys
    exact ⟨⟨[], by simp [applyCachePatch]⟩, rfl, fun r hr => Or.inl hr⟩
  | cons kv rest ih =>
    intro h keys
    rw [applyCachePatch_cons]
    by_cases hc : dictContains keys kv.1
    · rw [if_pos hc]
      obtain ⟨⟨ext, hext⟩, hobjs, href⟩ := ih (allocCells h [kv.2])
        (dictOverwrite keys kv.1 h.cells.length)
      refine ⟨⟨[kv.2] ++ ext, ?_⟩, by rw [hobjs]; rfl, ?_⟩
      · rw [hext]
        simp [allocCells]
      · intro r hr
        rcases href r hr with h1 | h1
        · rcases dictOverwrite_snd_subset _ _ _ _ h1 with h3 | h3
          · exact Or.inl h3
          · exact Or.inr (le_of_eq h3.symm)
        · refine Or.inr (le_trans ?_ h1)
          simp [allocCells]
    · rw [if_neg hc]
      exact ih h keys

theorem doStep_frame {h : Heap} {j : ℕ} {h2 : Heap} {i : ℕ} {R : List ℕ} (hij : i ≠ j)
    (hop : doStep h j = some h2) :
    framed h h2 i R ∧ ∀ r ∈ reachRefs h2 j, r ∈ reachRefs h j ∨ h.cells.length ≤ r := by
  simp only [doStep, Option.map_eq_some'] at hop
  obtain ⟨o, hobj, hh⟩ := hop
  subst hh
  refine ⟨framed_writeObj _ hij, ?_⟩
  intro r hr
  rw [reachRefs_of_get (writeObj_get_self h o _ hobj)] at hr
  rw [reachRefs_of_get hobj]
  exact Or.inl hr

theorem doResetStep_frame {h : Heap} {j : ℕ} {h2 : Heap} {i : ℕ} {R : List ℕ} (hij : i ≠ j)
    (hop : doResetStep h j = some h2) :
    framed h h2 i R ∧ ∀ r ∈ reachRefs h2 j, r ∈ reachRefs h j ∨ h.cells.length ≤ r := by
  simp only [doResetStep, Option.map_eq_some'] at hop
  obtain ⟨o, hobj, hh⟩ := hop
  subst hh
  refine ⟨framed_writeObj _ hij, ?_⟩
  intro r hr
  rw [reachRefs_of_get (writeObj_get_self h o _ hobj)] at hr
  rw [reachRefs_of_get hobj]
  exact Or.inl hr

theorem doSetParams_frame {h : Heap} {j : ℕ} {hd : Option (List (String × HVal))}
    {cd : Option (List (String × ECell))} {h2 : Heap} {i : ℕ} {R : List ℕ} (hij : i ≠ j)
    (hR : refsBelow R h.cells.length) (hop : doSetParams h j hd cd = some h2) :
    framed h h2 i R ∧ ∀ r ∈ reachRefs h2 j, r ∈ reachRefs h j ∨ h.cells.length ≤ r := by
  simp only [doSetParams, Option.map_eq_some'] at hop
  obtain ⟨o, hobj, hh⟩ := hop
  subst hh
  rw [reachRefs_of_get hobj]
  cases cd with
  | none =>
    refine ⟨framed_writeObj _ hij, ?_⟩
    intro r hr
    rw [reachRefs_of_get (writeObj_get_self h o _ hobj)] at hr
    exact Or.inl hr
  | some d =>
    obtain ⟨hext, hobjs, href⟩ := applyCachePatch_spec d h o.cacheKeys
    refine ⟨framed_trans (framed_of_append hext hobjs hR) (framed_writeObj _ hij), ?_⟩
    intro r hr
    rw [reachRefs_of_get (writeObj_get_self (applyCachePatch h o.cacheKeys d).1 o _
      (get_obj_of_eq hobjs hobj))] at hr
    exact href r hr

theorem doUpdate_frame {h : Heap} {j : ℕ} {p g : List ℝ} {n : String} {l : Option ℝ}
    {h2 : Heap} {i : ℕ} {R : List ℕ} (hij : i ≠ j)
    (hdisj : ∀ r ∈ reachRefs h j, r ∉ R) (hR : refsBelow R h.cells.length)
    (hop : doUpdate h j p g n l = some h2) :
    framed h h2 i R ∧ ∀ r ∈ reachRefs h2 j, r ∈ reachRefs h j ∨ h.cells.length ≤ r := by
  simp only [doUpdate, Option.bind_eq_some] at hop
  obtain ⟨o, hobj, hop⟩ := hop
  rw [reachRefs_of_get hobj] at hdisj ⊢
  cases halg : o.alg with
    | sgd =>
      rw [halg] at hop
      cases hm : getNum o.hyperparameters "momentum" with
      | none =>
        rw [hm] at hop
        exact Option.noConfusion hop
      | some momentum =>
        rw [hm] at hop
        cases hcn : getONum o.hyperparameters "clip_norm" with
        | none =>
          rw [hcn] at hop
          exact Option.noConfusion hop
        | some cn =>
          rw [hcn] at hop
          exact heapRebindUpdate_frame hobj hij hR hop
    | adagrad =>
      rw [halg] at hop
      cases he : getNum o.hyperparameters "eps" with
      | none =>
        rw [he] at hop
        exact Option.noConfusion hop
      | some eps =>
        rw [he] at hop
        cases hcn : getONum o.hyperparameters "clip_norm" with
        | none =>
          rw [hcn] at hop
          exact Option.noConfusion hop
        | some cn =>
          rw [hcn] at hop
          exact heapInPlaceUpdate_frame hobj hij hdisj hR hop
    | rmsprop =>
      rw [halg] at hop
      cases hdc : getNum o.hyperparameters "decay" with
      | none =>
        rw [hdc] at hop
        exact Option.noConfusion hop
      | some decay =>
        rw [hdc] at hop
        cases he : getNum o.hyperparameters "eps" with
        | none =>
          rw [he] at hop
          exact Option.noConfusion hop
        | some eps =>
          rw [he] at hop
          cases hcn : getONum o.hyperparameters "clip_norm" with
          | none =>
            rw [hcn] at hop
            exact Option.noConfusion hop
          | some cn =>
            rw [hcn] at hop
            exact heapRebindUpdate_frame hobj hij hR hop
    | adam =>
      rw [halg] at hop
      cases hd1 : getNum o.hyperparameters "decay1" with
      | none =>
        rw [hd1] at hop
        exact Option.noConfusion hop
      | some d1 =>
        rw [hd1] at hop
        cases hd2 : getNum o.hyperparameters "decay2" with
        | none =>
          rw [hd2] at hop
          exact Option.noConfusion hop
        | some d2 =>
          rw [hd2] at hop
          cases he : getNum o.hyperparameters "eps" with
          | none =>
            rw [he] at hop
            exact Option.noConfusion hop
          | some eps =>
            rw [he] at hop
            cases hcn : getONum o.hyperparameters "clip_norm" with
            | none =>
              rw [hcn] at hop
              exact Option.noConfusion hop
            | some cn =>
              rw [hcn] at hop
              exact heapAdamUpdate_frame hobj hij hdisj hR hop

theorem doOp_frame {h : Heap} {j : ℕ} {op : HOp} {h2 : Heap} {i : ℕ} {R : List ℕ}
    (hij : i ≠ j) (hdisj : ∀ r ∈ reachRefs h j, r ∉ R) (hR : refsBelow R h.cells.length)
    (hop : doOp h j op = some h2) :
    framed h h2 i R ∧ ∀ r ∈ reachRefs h2 j, r ∈ reachRefs h j ∨ h.cells.length ≤ r := by
  cases op with
  | update p g n l => exact doUpdate_frame hij hdisj hR hop
  | step => exact doStep_frame hij hop
  | resetStep => exact doResetStep_frame hij hop
  | setParams hd cd => exact doSetParams_frame hij hR hop

/-- Running any sequence of operations on object `j` leaves everything
object `i ≠ j` can see untouched. -/
theorem runOps_frame : ∀ (ops : List HOp) (h hf : Heap) (i j : ℕ) (R : List ℕ),
    i ≠ j → (∀ r ∈ reachRefs h j, r ∉ R) → refsBelow R h.cells.length →
    runOps h j ops = some hf → framed h hf i R := by
  intro ops
  induction ops with
  | nil =>
    intro h hf i j R _ _ _ hrun
    simp only [runOps] at hrun
    injection hrun with hh
    subst hh
    exact framed_refl _ _ _
  | cons op ops ih =>
    intro h hf i j R hij hdisj hR hrun
    simp only [runOps] at hrun
    cases hop : doOp h j op with
    | none =>
      rw [hop] at hrun
      exact Option.noConfusion hrun
    | some h1 =>
      rw [hop] at hrun
      have hrun2 : runOps h1 j ops = some hf := hrun
      obtain ⟨fr1, hre⟩ := doOp_frame hij hdisj hR hop
      have hdisj2 : ∀ r ∈ reachRefs h1 j, r ∉ R := by
        intro r hr hmem
        rcases hre r hr with h3 | h3
        · exact hdisj r h3 hmem
        · exact absurd (hR r hmem) (not_lt.mpr h3)
      exact framed_trans fr1 (ih h1 hf i j R hij hdisj2 (refsBelow_mono hR fr1.2.2) hrun2)

theorem copyOp_spec {h : Heap} {i : ℕ} {hc : Heap} {j : ℕ}
    (hcopy : copyOp h i = some (hc, j)) :
    ∃ o, h.objs.get? i = some o
      ∧ hc.cells = h.cells ++ cloneCells h o.cacheKeys
      ∧ hc.objs = h.objs ++ [{ o with cacheKeys := renumberKeys h.cells.length o.cacheKeys }]
      ∧ j = h.objs.length := by
  simp only [copyOp, Option.map_eq_some'] at hcopy
  obtain ⟨o, hobj, hh⟩ := hcopy
  injection hh with h1 h2
  exact ⟨o, hobj, by rw [← h1], by rw [← h1], h2.symm⟩

/-- All the references handed out by `deepcopy`'s renumbering are fresh. -/
theorem renumberKeys_snd_ge : ∀ (keys : List (String × ℕ)) (base r : ℕ),
    r ∈ (renumberKeys base keys).map Prod.snd → base ≤ r := by
  intro keys
  induction keys with
  | nil =>
    intro base r hr
    simp [renumberKeys] at hr
  | cons p ps ih =>
    intro base r hr
    simp only [renumberKeys, List.map_cons, List.mem_cons] at hr
    rcases hr with hr | hr
    · exact le_of_eq hr.symm
    · exact le_trans (Nat.le_succ base) (ih (base + 1) r hr)

/-- If object `i`'s record and the contents of its cache cells are
preserved, so is everything the caller can observe of it. -/
theorem observe_eq_of_preserved {h h2 : Heap} {i : ℕ} {o : HObj}
    (hobj : h.objs.get? i = some o)
    (hobj2 : h2.objs.get? i = h.objs.get? i)
    (hcells : ∀ r ∈ o.cacheKeys.map Prod.snd, h2.cells.get? r = h.cells.get? r) :
    observe h2 i = observe h i := by
  unfold observe
  rw [hobj2, hobj, Option.map_some', Option.map_some']
  have hmap : o.cacheKeys.map (fun p => (p.1, cellAt h2 p.2))
      = o.cacheKeys.map (fun p => (p.1, cellAt h p.2)) :=
    List.map_congr_left (fun p hp =>
      congrArg (fun z => (p.1, z)) (hcells p.2 (List.mem_map_of_mem Prod.snd hp)))
  rw [hmap]

/-- **C8.** `copy()` is a fully independent deep copy: provided the
original object's cache references are valid, the copy observes the same
state as the original right after copying, and after *any* successful
sequence of `update`, `step`, `reset_step` or `set_params` operations on
the copy, everything observable of the original — its hyperparameters,
`cur_step`, scheduler, cache keys and the contents of all its cached
tensors/records — is exactly as it was.  No mutable state is shared. -/
theorem c8_copy_fully_independent :
    ∀ (h : Heap) (i : ℕ) (hc : Heap) (j : ℕ) (ops : List HOp) (hf : Heap),
      refsBelow (reachRefs h i) h.cells.length →
      copyOp h i = some (hc, j) → runOps hc j ops = some hf →
      observe hc i = observe h i ∧ observe hf i = observe hc i := by
  intro h i hc j ops hf hvalid hcopy hrun
  obtain ⟨o, hobj, hcells, hobjs, hj⟩ := copyOp_spec hcopy
  have hilt : i < h.objs.length := get?_lt_of_some hobj
  have hij : i ≠ j := by
    rw [hj]
    exact ne_of_lt hilt
  have hobji : hc.objs.get? i = h.objs.get? i := by
    rw [hobjs]
    exact List.get?_append hilt
  have hreach : reachRefs h i = o.cacheKeys.map Prod.snd := reachRefs_of_get hobj
  have hcellpres : ∀ r ∈ o.cacheKeys.map Prod.snd, hc.cells.get? r = h.cells.get? r := by
    intro r hr
    rw [hcells]
    exact List.get?_append (hvalid r (by rw [hreach]; exact hr))
  have hobs1 : observe hc i = observe h i := observe_eq_of_preserved hobj hobji hcellpres
  have hobjc : hc.objs.get? j
      = some { o with cacheKeys := renumberKeys h.cells.length o.cacheKeys } := by
    rw [hobjs, hj]
    exact List.get?_concat_length _ _
  have hdisj : ∀ r ∈ reachRefs hc j, r ∉ o.cacheKeys.map Prod.snd := by
    intro r hr hmem
    rw [reachRefs_of_get hobjc] at hr
    have hge := renumberKeys_snd_ge _ _ _ hr
    exact absurd (hvalid r (by rw [hreach]; exact hmem)) (not_lt.mpr hge)
  have hRc : refsBelow (o.cacheKeys.map Prod.snd) hc.cells.length := by
    intro r hr
    rw [hcells, List.length_append]
    exact lt_of_lt_of_le (hvalid r (by rw [hreach]; exact hr)) (Nat.le_add_right _ _)
  have frame := runOps_frame ops hc hf i j (o.cacheKeys.map Prod.snd) hij hdisj hRc hrun
  exact ⟨hobs1, observe_eq_of_preserved (by rw [hobji]; exact hobj) frame.1 frame.2.1⟩

/-- Witness for C8: a one-object heap (an `SGD` instance with an empty
cache), copied, with one `step` call run on the copy; the original's
observable state is unchanged at both checkpoints. -/
theorem c8_witness :
    refsBelow (reachRefs ⟨[], [⟨Alg.sgd, [("momentum", HVal.num 0)], [], 0, fun _ _ => 1⟩]⟩ 0)
      (⟨[], [⟨Alg.sgd, [("momentum", HVal.num 0)], [], 0, fun _ _ => 1⟩]⟩ : Heap).cells.length
    ∧ ∃ (hc : Heap) (j : ℕ) (hf : Heap),
      copyOp ⟨[], [⟨Alg.sgd, [("momentum", HVal.num 0)], [], 0, fun _ _ => 1⟩]⟩ 0 = some (hc, j)
      ∧ runOps hc j [HOp.step] = some hf
      ∧ observe hc 0
        = observe ⟨[], [⟨Alg.sgd, [("momentum", HVal.num 0)], [], 0, fun _ _ => 1⟩]⟩ 0
      ∧ observe hf 0 = observe hc 0 := by
  have hvalid : refsBelow
      (reachRefs ⟨[], [⟨Alg.sgd, [("momentum", HVal.num 0)], [], 0, fun _ _ => 1⟩]⟩ 0)
      (⟨[], [⟨Alg.sgd, [("momentum", HVal.num 0)], [], 0, fun _ _ => 1⟩]⟩ : Heap).cells.length := by
    intro r hr
    have hempty : reachRefs ⟨[], [⟨Alg.sgd, [("momentum", HVal.num 0)], [], 0,
        fun _ _ => 1⟩]⟩ 0 = [] := rfl
    rw [hempty] at hr
    simp at hr
  refine ⟨hvalid, _, _, _, rfl, rfl, ?_⟩
  have hres := c8_copy_fully_independent
    ⟨[], [⟨Alg.sgd, [("momentum", HVal.num 0)], [], 0, fun _ _ => 1⟩]⟩ 0 _ _ [HOp.step] _
    hvalid rfl rfl
  exact ⟨hres.1, hres.2⟩
